import Mathlib

/-!
Verification development for the "new Yale" sparse-matrix storage engine
(`src/ext/nmatrix/storage/yale.cpp`).

The storage is shallowly embedded: machine arrays become Lean lists, the
element dtype becomes `Int`, the index itype becomes `Nat`, in-place loops
become structural recursions or folds, and `rb_raise` becomes `Except`.
Reads of allocated memory are modelled with `List.getD` (default `0`),
matching the fact that a C read inside the allocation always yields *some*
value; reads past the allocation only occur in executions that are undefined
behaviour in C, and every theorem below either stays inside the allocation
or explicitly exhibits such an execution as a bug.

Two representations are used:
* `YaleStorage` — total arrays (`List Nat` / `List Int`), for the read-only
  and freshly-building operations (`ref`, `eqeq`, `ew_op`,
  `create_from_old_yale`), all of which only touch initialized slots.
* `YaleStorageM` — arrays of `Option` cells (`none` = uninitialized
  memory), for the mutating insertion subsystem (`vector_insert`,
  `vector_insert_resize`, `increment_ia_after`, `set`, `cast_copy` output),
  where the C code can and does leave slots uninitialized.
-/

namespace NmYale

/-- A "new Yale" storage with total arrays: `shape0 × shape1` matrix,
value array `a` (diagonal on `[0,shape0)`, sentinel zero at `shape0`,
off-diagonal values beyond), index array `ija` (row pointers on
`[0,shape0]`, column indices beyond). Mirrors `YALE_STORAGE`. -/
structure YaleStorage where
  shape0 : Nat
  shape1 : Nat
  dtype : Nat
  itype : Nat
  ija : List Nat
  a : List Int
  ndnz : Nat
  capacity : Nat
deriving Repr, DecidableEq

/-- Read of the IJA array (C: `reinterpret_cast<IType*>(s->ija)[i]`). -/
def ijaAt (s : YaleStorage) (i : Nat) : Nat := s.ija.getD i 0

/-- Read of the A array (C: `reinterpret_cast<DType*>(s->a)[i]`). -/
def aAt (s : YaleStorage) (i : Nat) : Int := s.a.getD i 0

/-- `get_size`: the used-slot count `ija[shape[0]]`. -/
def get_size (s : YaleStorage) : Nat := ijaAt s s.shape0

/-- `max_size`: theoretical maximum capacity
`shape0*shape1 + 1` plus `shape0 - shape1` when `shape0 > shape1`. -/
def max_size (shape0 shape1 : Nat) : Nat :=
  shape0 * shape1 + 1 + (if shape1 < shape0 then shape0 - shape1 else 0)

/-- Well-formedness of a storage: allocated lengths, row pointers starting
at `shape0+1` and monotone, size within capacity, sentinel zero, and each
row's column indices strictly increasing, different from the row index and
inside the shape.  These are the structural invariants of section 3 of the
spec, phrased over the embedding. -/
def WF (s : YaleStorage) : Prop :=
  s.ija.length = s.capacity ∧
  s.a.length = s.capacity ∧
  1 ≤ s.shape0 ∧
  1 ≤ s.shape1 ∧
  ijaAt s 0 = s.shape0 + 1 ∧
  (∀ i, i < s.shape0 → ijaAt s i ≤ ijaAt s (i + 1)) ∧
  get_size s ≤ s.capacity ∧
  aAt s s.shape0 = 0 ∧
  (∀ i, i < s.shape0 → ∀ q, q < ijaAt s (i + 1) → ∀ p, p < q →
     ijaAt s i ≤ p → ijaAt s p < ijaAt s q) ∧
  (∀ i, i < s.shape0 → ∀ p, p < ijaAt s (i + 1) → ijaAt s i ≤ p →
     ijaAt s p ≠ i ∧ ijaAt s p < s.shape1)

instance (s : YaleStorage) : Decidable (WF s) := by
  unfold WF; infer_instance

/-- Column `c` is stored in row `i`'s off-diagonal range. -/
def StoredAt (s : YaleStorage) (i c : Nat) : Prop :=
  ∃ p, ijaAt s i ≤ p ∧ p < ijaAt s (i + 1) ∧ ijaAt s p = c

instance (s : YaleStorage) (i c : Nat) : Decidable (StoredAt s i c) := by
  have : StoredAt s i c ↔ ∃ p, p < ijaAt s (i+1) ∧ (ijaAt s i ≤ p ∧ ijaAt s p = c) := by
    constructor
    · rintro ⟨p, h1, h2, h3⟩; exact ⟨p, h2, h1, h3⟩
    · rintro ⟨p, h2, h1, h3⟩; exact ⟨p, h1, h2, h3⟩
  exact decidable_of_iff _ this.symm

/-!  ### Binary search (`binary_search`, yale.cpp lines 880-898)

The C recursion terminates because the interval shrinks; the embedding
makes that explicit with a fuel argument that the wrapper seeds with the
interval length, which the lemmas below show is always sufficient. -/

def binary_search_go (s : YaleStorage) (key : Nat) : Nat → Nat → Nat → Int
  | 0, _, _ => -1
  | fuel + 1, left, right =>
    if left > right then -1
    else
      let mid := (left + right) / 2
      let mid_j := ijaAt s mid
      if mid_j = key then (mid : Int)
      else if mid_j > key then binary_search_go s key fuel left (mid - 1)
      else binary_search_go s key fuel (mid + 1) right

/-- `binary_search`: position of `key` in `ija[left..right]` or `-1`. -/
def binary_search (s : YaleStorage) (left right key : Nat) : Int :=
  binary_search_go s key (right + 1 - left) left right

/-!  ### Single-cell reference (`ref`, yale.cpp lines 408-433) -/

/-- The index into the A array that `ref` returns a pointer to:
diagonal slot, the found off-diagonal slot, or the sentinel `shape0`. -/
def ref_index (s : YaleStorage) (r c : Nat) : Nat :=
  if r = c then r
  else if ijaAt s r = ijaAt s (r + 1) then s.shape0
  else
    let pos := binary_search s (ijaAt s r) (ijaAt s (r + 1) - 1) c
    if pos ≠ -1 ∧ ijaAt s pos.toNat = c then pos.toNat else s.shape0

/-- `ref` with the `slice->single` check: raises (`.error`) only for
non-single slices, otherwise returns the slot index. -/
def ref (s : YaleStorage) (single : Bool) (r c : Nat) : Except String Nat :=
  if single then .ok (ref_index s r c)
  else .error "This type slicing not supported yet."

/-- The value a caller reads through `ref` at cell `(r, c)`. -/
def refValue (s : YaleStorage) (r c : Nat) : Int := aAt s (ref_index s r c)

/-! ### Equality engine (`eqeq`, `ndrow_eqeq_ndrow`, `ndrow_is_empty`,
yale.cpp lines 492-626) -/

/-- Forward scan of `ndrow_is_empty` (fuel = `ija_next - ija`). -/
def ndrow_is_empty_go (s : YaleStorage) : Nat → Nat → Bool
  | _, 0 => true
  | p, fuel + 1 => if aAt s p ≠ 0 then false else ndrow_is_empty_go s (p + 1) fuel

/-- `ndrow_is_empty`: is the off-diagonal part `[ija, ija_next)` of a row
all zero (or structurally empty)? -/
def ndrow_is_empty (s : YaleStorage) (ija ija_next : Nat) : Bool :=
  ndrow_is_empty_go s ija (ija_next - ija)

/-- One state of the `ndrow_eqeq_ndrow` two-pointer loop, stepped with
fuel (`none` = the loop has not terminated within `fuel` iterations; the C
loop genuinely does not terminate in some reachable states, see C8).
State: `l_ija r_ija l_ja r_ja ja l_no_more r_no_more`, exactly the local
variables of the source.  The final `else` arm is the source's
"Unhandled in eqeq" branch, which loops without changing state. -/
def ndrow_eqeq_go (l r : YaleStorage) (l_next r_next : Nat) :
    Nat → Nat → Nat → Nat → Nat → Nat → Bool → Bool → Option Bool
  | 0, _, _, _, _, _, _, _ => none
  | fuel + 1, l_ija, r_ija, l_ja, r_ja, ja, l_nm, r_nm =>
    if l_nm && r_nm then some true
    else if l_ja = r_ja then
      if aAt r r_ija ≠ aAt l l_ija then some false
      else
        let l_ja' := if l_ija + 1 < l_next then ijaAt l (l_ija + 1) else l_ja
        let l_nm' := if l_ija + 1 < l_next then l_nm else true
        let r_ja' := if r_ija + 1 < r_next then ijaAt r (r_ija + 1) else r_ja
        let r_nm' := if r_ija + 1 < r_next then r_nm else true
        ndrow_eqeq_go l r l_next r_next fuel (l_ija + 1) (r_ija + 1) l_ja' r_ja'
          (min l_ja' r_ja') l_nm' r_nm'
    else if l_nm || decide (ja < l_ja) then
      if aAt r r_ija ≠ 0 then some false
      else if r_ija + 1 < r_next then
        ndrow_eqeq_go l r l_next r_next fuel l_ija (r_ija + 1) l_ja (ijaAt r (r_ija + 1))
          (min l_ja (ijaAt r (r_ija + 1))) l_nm r_nm
      else
        ndrow_eqeq_go l r l_next r_next fuel l_ija (r_ija + 1) l_ja r_ja ja true r_nm
    else if r_nm || decide (ja < r_ja) then
      if aAt l l_ija ≠ 0 then some false
      else if l_ija + 1 < l_next then
        ndrow_eqeq_go l r l_next r_next fuel (l_ija + 1) r_ija (ijaAt l (l_ija + 1)) r_ja
          (min (ijaAt l (l_ija + 1)) r_ja) l_nm r_nm
      else
        ndrow_eqeq_go l r l_next r_next fuel (l_ija + 1) r_ija l_ja r_ja ja true r_nm
    else
      ndrow_eqeq_go l r l_next r_next fuel l_ija r_ija l_ja r_ja ja l_nm r_nm

/-- `ndrow_eqeq_ndrow` (yale.cpp 536-609): compare the off-diagonal parts
of two rows by a two-pointer ascending merge. -/
def ndrow_eqeq_ndrow (fuel : Nat) (l r : YaleStorage)
    (l_ija l_next r_ija r_next : Nat) : Option Bool :=
  ndrow_eqeq_go l r l_next r_next fuel l_ija r_ija (ijaAt l l_ija) (ijaAt r r_ija)
    (min (ijaAt l l_ija) (ijaAt r r_ija)) false false

/-- The per-row loop of `eqeq` (rows `i, i+1, …` with `rem` rows left). -/
def eqeq_rows (fuel : Nat) (l r : YaleStorage) : Nat → Nat → Option Bool
  | _, 0 => some true
  | i, rem + 1 =>
    if ndrow_is_empty l (ijaAt l i) (ijaAt l (i + 1)) then
      if ndrow_is_empty r (ijaAt r i) (ijaAt r (i + 1)) then
        eqeq_rows fuel l r (i + 1) rem
      else some false
    else if ndrow_is_empty r (ijaAt r i) (ijaAt r (i + 1)) then some false
    else
      match ndrow_eqeq_ndrow fuel l r (ijaAt l i) (ijaAt l (i + 1)) (ijaAt r i) (ijaAt r (i + 1)) with
      | none => none
      | some false => some false
      | some true => eqeq_rows fuel l r (i + 1) rem

/-- `eqeq` (yale.cpp 492-531): whole-matrix equality — diagonals first,
then the per-row comparison. -/
def eqeq (fuel : Nat) (left right : YaleStorage) : Option Bool :=
  if (List.range left.shape0).all (fun i => decide (aAt left i = aAt right i)) then
    eqeq_rows fuel left right 0 left.shape0
  else some false

/-- Outcome of the bounds-instrumented merge: a result, an out-of-range
read, or fuel exhaustion (non-termination of the C loop). -/
inductive MergeOutcome
  | val (b : Bool)
  | oob
  | nofuel
deriving Repr, DecidableEq

/-- `ndrow_eqeq_ndrow` instrumented with bounds checks: identical control
flow to `ndrow_eqeq_go`, but every read of the `A` arrays at the current
pointers is first checked against the row ranges `[l_lo, l_next)` /
`[r_lo, r_next)` the function was given (reads of `IJA` are already
guarded by the source's own `< l_next` / `< r_next` tests). -/
def ndrow_eqeq_checked_go (l r : YaleStorage) (l_lo l_next r_lo r_next : Nat) :
    Nat → Nat → Nat → Nat → Nat → Nat → Bool → Bool → MergeOutcome
  | 0, _, _, _, _, _, _, _ => .nofuel
  | fuel + 1, l_ija, r_ija, l_ja, r_ja, ja, l_nm, r_nm =>
    if l_nm && r_nm then .val true
    else if l_ja = r_ja then
      if ¬ (l_lo ≤ l_ija ∧ l_ija < l_next ∧ r_lo ≤ r_ija ∧ r_ija < r_next) then .oob
      else if aAt r r_ija ≠ aAt l l_ija then .val false
      else
        let l_ja' := if l_ija + 1 < l_next then ijaAt l (l_ija + 1) else l_ja
        let l_nm' := if l_ija + 1 < l_next then l_nm else true
        let r_ja' := if r_ija + 1 < r_next then ijaAt r (r_ija + 1) else r_ja
        let r_nm' := if r_ija + 1 < r_next then r_nm else true
        ndrow_eqeq_checked_go l r l_lo l_next r_lo r_next fuel (l_ija + 1) (r_ija + 1)
          l_ja' r_ja' (min l_ja' r_ja') l_nm' r_nm'
    else if l_nm || decide (ja < l_ja) then
      if ¬ (r_lo ≤ r_ija ∧ r_ija < r_next) then .oob
      else if aAt r r_ija ≠ 0 then .val false
      else if r_ija + 1 < r_next then
        ndrow_eqeq_checked_go l r l_lo l_next r_lo r_next fuel l_ija (r_ija + 1) l_ja
          (ijaAt r (r_ija + 1)) (min l_ja (ijaAt r (r_ija + 1))) l_nm r_nm
      else
        ndrow_eqeq_checked_go l r l_lo l_next r_lo r_next fuel l_ija (r_ija + 1) l_ja r_ja ja true r_nm
    else if r_nm || decide (ja < r_ja) then
      if ¬ (l_lo ≤ l_ija ∧ l_ija < l_next) then .oob
      else if aAt l l_ija ≠ 0 then .val false
      else if l_ija + 1 < l_next then
        ndrow_eqeq_checked_go l r l_lo l_next r_lo r_next fuel (l_ija + 1) r_ija
          (ijaAt l (l_ija + 1)) r_ja (min (ijaAt l (l_ija + 1)) r_ja) l_nm r_nm
      else
        ndrow_eqeq_checked_go l r l_lo l_next r_lo r_next fuel (l_ija + 1) r_ija l_ja r_ja ja true r_nm
    else
      ndrow_eqeq_checked_go l r l_lo l_next r_lo r_next fuel l_ija r_ija l_ja r_ja ja l_nm r_nm

/-- Bounds-instrumented `ndrow_eqeq_ndrow`. -/
def ndrow_eqeq_checked (fuel : Nat) (l r : YaleStorage)
    (l_ija l_next r_ija r_next : Nat) : MergeOutcome :=
  if ¬ (l_ija < l_next ∧ r_ija < r_next) then .oob
  else
    ndrow_eqeq_checked_go l r l_ija l_next r_ija r_next fuel l_ija r_ija
      (ijaAt l l_ija) (ijaAt r r_ija) (min (ijaAt l l_ija) (ijaAt r r_ija)) false false

/-! ### Concrete storages used to exhibit the equality-engine bug -/

/-- `[[0, 5, 9], [0, 0, 0]]` stored without explicit zeros. -/
def yale_c1_left : YaleStorage :=
  { shape0 := 2, shape1 := 3, dtype := 0, itype := 0,
    ija := [3, 5, 5, 1, 2], a := [0, 0, 0, 5, 9], ndnz := 2, capacity := 5 }

/-- `[[0, 5, 0], [0, 0, 0]]` with an explicitly stored zero at cell (1,0)
(allowed by invariant 5 of the spec). -/
def yale_c1_right : YaleStorage :=
  { shape0 := 2, shape1 := 3, dtype := 0, itype := 0,
    ija := [3, 4, 5, 1, 0], a := [0, 0, 0, 5, 0], ndnz := 2, capacity := 5 }

/-- `[[0, 5, 0]]` stored without explicit zeros. -/
def yale_c8_left : YaleStorage :=
  { shape0 := 1, shape1 := 3, dtype := 0, itype := 0,
    ija := [2, 3, 1], a := [0, 0, 5], ndnz := 1, capacity := 3 }

/-- `[[0, 5, 0]]` with an explicitly stored zero at cell (0,2). -/
def yale_c8_right : YaleStorage :=
  { shape0 := 1, shape1 := 3, dtype := 0, itype := 0,
    ija := [2, 4, 1, 2], a := [0, 0, 5, 0], ndnz := 2, capacity := 4 }

/-! ### Format bridge (`create_from_old_yale`, yale.cpp lines 139-208)

The input is an old-Yale (standard compressed-row) triple
`(ir, jr, ar)`: row pointers `ir` of length `rows+1`, column indices
`jr` and values `ar`. -/

/-- The input positions belonging to row `i`: `[ir[i], ir[i+1])`. -/
def oy_row_positions (ir : List Nat) (i : Nat) : List Nat :=
  List.range' (ir.getD i 0) (ir.getD (i + 1) 0 - ir.getD i 0)

/-- The non-diagonal input positions of row `i` (the first pass of
`create_from_old_yale` counts these; the fill pass copies them). -/
def oy_nd_positions (ir jr : List Nat) (i : Nat) : List Nat :=
  (oy_row_positions ir i).filter (fun p => decide (jr.getD p 0 ≠ i))

/-- Per-row non-diagonal count. -/
def oy_nd_cnt (ir jr : List Nat) (i : Nat) : Nat := (oy_nd_positions ir jr i).length

/-- Sum of `oy_nd_cnt` over the `rem` rows starting at `i`; the first
counting pass of `create_from_old_yale` computes `oy_nd_seg ir jr 0 rows`
(it walks every row and counts entries with `i ≠ jr[p]`). -/
def oy_nd_seg (ir jr : List Nat) : Nat → Nat → Nat
  | _, 0 => 0
  | i, rem + 1 => oy_nd_cnt ir jr i + oy_nd_seg ir jr (i + 1) rem

/-- Inner fill loop of `create_from_old_yale` for row `i`: walks `fuel`
input positions starting at `p` (the source's single `p` cursor carried
across rows); a diagonal entry is written to `al[i]` and retracts `pp`
(`--pp` against the loop's `++pp`), a non-diagonal entry is appended at
`pp`. -/
def cfoy_row (i : Nat) (jr : List Nat) (ar : List Int) :
    Nat → Nat × Nat × List Nat × List Int → Nat × Nat × List Nat × List Int
  | 0, st => st
  | fuel + 1, (p, pp, ijl, al) =>
    if i = jr.getD p 0 then
      cfoy_row i jr ar fuel (p + 1, pp, ijl, al.set i (ar.getD p 0))
    else
      cfoy_row i jr ar fuel
        (p + 1, pp + 1, ijl.set pp (jr.getD p 0), al.set pp (ar.getD p 0))

/-- Outer fill loop: for each row `i` record the row start `ijl[i] = pp`
and copy the row's entries up to `ir[i+1]`. -/
def cfoy_rows (ir jr : List Nat) (ar : List Int) :
    Nat → Nat → Nat × Nat × List Nat × List Int → Nat × Nat × List Nat × List Int
  | _, 0, st => st
  | i, rem + 1, (p, pp, ijl, al) =>
    cfoy_rows ir jr ar (i + 1) rem
      (cfoy_row i jr ar (ir.getD (i + 1) 0 - p) (p, pp, ijl.set i pp, al))

/-- The machine state after the fill passes of `create_from_old_yale`:
the cursor pair `(p, pp)` and the two freshly allocated arrays (of size
`rows + ndnz + 1`, as computed by the counting pass) after all rows have
been processed. -/
def cfoy_state (shape0 : Nat) (ir jr : List Nat) (ar : List Int) :
    Nat × Nat × List Nat × List Int :=
  cfoy_rows ir jr ar 0 shape0
    (ir.getD 0 0, shape0 + 1,
      List.replicate (shape0 + oy_nd_seg ir jr 0 shape0 + 1) 0,
      List.replicate (shape0 + oy_nd_seg ir jr 0 shape0 + 1) 0)

/-- `create_from_old_yale` (yale.cpp 139-208).  The `RDType → LDType`
value conversion is the identity in the embedding (all values are `Int`);
the itype chosen by `alloc` is opaque and modelled as `0`.  The source
zeroes the diagonal and writes every other used slot during the fill
(for valid input), so the freshly allocated arrays are modelled as
zero-filled.  After the fill, `ija[shape0]` is set to the final write
cursor and `a[shape0]` to the sentinel zero. -/
def create_from_old_yale (dtype shape0 shape1 : Nat) (ir jr : List Nat)
    (ar : List Int) : YaleStorage :=
  let ndnz := oy_nd_seg ir jr 0 shape0
  let cap := shape0 + ndnz + 1
  let st := cfoy_state shape0 ir jr ar
  { shape0 := shape0, shape1 := shape1, dtype := dtype, itype := 0,
    ija := st.2.2.1.set shape0 st.2.1, a := st.2.2.2.set shape0 0,
    ndnz := ndnz, capacity := cap }

/-- The dense value the old-Yale triple specifies at cell `(r, c)`:
the value at the first (for valid input: only) position of row `r`
carrying column `c`, else zero. -/
def oy_dense (ir jr : List Nat) (ar : List Int) (r c : Nat) : Int :=
  match (oy_row_positions ir r).find? (fun p => decide (jr.getD p 0 = c)) with
  | some p => ar.getD p 0
  | none => 0

/-- Validity of an old-Yale triple, as the claim requires: row pointers
of length `rows+1` starting at 0, non-decreasing, ending at the length of
the column/value arrays; per-row strictly ascending in-range columns; and
no explicitly stored non-diagonal zeros. -/
def OldYaleValid (shape0 shape1 : Nat) (ir jr : List Nat) (ar : List Int) : Prop :=
  1 ≤ shape0 ∧ 1 ≤ shape1 ∧
  ir.length = shape0 + 1 ∧
  ir.getD 0 0 = 0 ∧
  (∀ i, i < shape0 → ir.getD i 0 ≤ ir.getD (i + 1) 0) ∧
  ir.getD shape0 0 = jr.length ∧
  jr.length = ar.length ∧
  (∀ i, i < shape0 → ∀ q, q < ir.getD (i + 1) 0 → ∀ p, p < q → ir.getD i 0 ≤ p →
     jr.getD p 0 < jr.getD q 0) ∧
  (∀ i, i < shape0 → ∀ p, p < ir.getD (i + 1) 0 → ir.getD i 0 ≤ p →
     jr.getD p 0 < shape1) ∧
  (∀ i, i < shape0 → ∀ p, p < ir.getD (i + 1) 0 → ir.getD i 0 ≤ p →
     jr.getD p 0 ≠ i → ar.getD p 0 ≠ 0)

set_option synthInstance.maxSize 2000 in
instance (shape0 shape1 : Nat) (ir jr : List Nat) (ar : List Int) :
    Decidable (OldYaleValid shape0 shape1 ir jr ar) := by
  unfold OldYaleValid; infer_instance

/-! ### Mutation subsystem (`vector_insert`, `vector_insert_resize`,
`increment_ia_after`, `insert_search`, `set`, yale.cpp lines 439-483 and
905-1071)

Here arrays are lists of `Option` cells so that memory the C code leaves
uninitialized is visible as `none`.  A C read of an initialized slot is
`(getD i none).getD 0`; reads the theorems exercise only ever hit
initialized (`some`) slots, except where a claim is being refuted. -/

/-- Storage with uninitialized slots made explicit (`none`). -/
structure YaleStorageM where
  shape0 : Nat
  shape1 : Nat
  dtype : Nat
  itype : Nat
  ija : List (Option Nat)
  a : List (Option Int)
  ndnz : Nat
  capacity : Nat
deriving Repr, DecidableEq

/-- Read of an IJA slot as the C code sees it.  Reading an uninitialized
slot is undefined behaviour in C; the embedding returns `0` there, and
every theorem only exercises initialized reads (or flags the violation). -/
def ijaRead (s : YaleStorageM) (i : Nat) : Nat := (s.ija.getD i none).getD 0

/-- `get_size` over the mutable representation. -/
def get_size_m (s : YaleStorageM) : Nat := ijaRead s s.shape0

/-- Errors raised by the insertion subsystem (`rb_raise` calls). -/
inductive YErr
  | posBeforeJa
  | noMem
deriving Repr, DecidableEq

/-- A C copy loop `for (i = lo; i < lo + cnt; ++i) dst[i + shift] = f(i)`. -/
def copy_loop (f : Nat → α) : Nat → Nat → Nat → List α → List α
  | _, 0, _, dst => dst
  | lo, cnt + 1, shift, dst => copy_loop f (lo + 1) cnt shift (dst.set (lo + shift) (f lo))

/-- Modelled from the spec: the growth factor `GROWTH_CONSTANT` is defined
in `yale.h`, which is not under `src/`; the spec (§4.2) only calls it
`GROWTH_FACTOR` without a value.  The repository's `yale.h` sets it to
1.5 (the value exposed as the Ruby constant `YALE_GROWTH_CONSTANT`,
yale.cpp:1299), so the embedding computes `capacity * 3 / 2` in integer
arithmetic. -/
def GROWTH_CONSTANT_MUL (capacity : Nat) : Nat := capacity * 3 / 2

/-- The capacity `vector_insert_resize` settles on when it does not fail:
`capacity * GROWTH_CONSTANT`, clamped down to the theoretical maximum and
then up to `current_size + n`. -/
def resize_new_capacity (s : YaleStorageM) (current_size n : Nat) : Nat :=
  let new_capacity0 := GROWTH_CONSTANT_MUL s.capacity
  let max_capacity := max_size s.shape0 s.shape1
  let new_capacity1 := if new_capacity0 > max_capacity then max_capacity else new_capacity0
  if new_capacity1 < current_size + n then current_size + n else new_capacity1

/-- `vector_insert_resize` (yale.cpp 905-966).  Faithful points: the
resource-exhaustion check only happens inside the `new_capacity >
max_capacity` branch (here merged into one conjunction guarding the
error); the suffix copy runs `i` from `pos` to
`current_size - pos + n - 1` (the source's — wrong — bound), shifted by
`n`; a `struct_only` resize copies only IJA.  Freshly allocated cells are
`none`; the gap `[pos, pos+n)` is written later by `vector_insert`.
(The unused `j`/`val` parameters of the source are omitted.) -/
def vector_insert_resize (s : YaleStorageM) (current_size pos n : Nat)
    (struct_only : Bool) : Except YErr YaleStorageM :=
  if GROWTH_CONSTANT_MUL s.capacity > max_size s.shape0 s.shape1 ∧
      current_size + n > max_size s.shape0 s.shape1 then
    .error .noMem
  else
    let new_capacity := resize_new_capacity s current_size n
    let new_ija1 := copy_loop (fun i => s.ija.getD i none) 0 pos 0
      (List.replicate new_capacity none)
    let new_a1 := if struct_only then List.replicate new_capacity none
      else copy_loop (fun i => s.a.getD i none) 0 pos 0 (List.replicate new_capacity none)
    let bound := current_size - pos + n - 1
    let new_ija2 := copy_loop (fun i => s.ija.getD i none) pos (bound - pos) n new_ija1
    let new_a2 := if struct_only then new_a1
      else copy_loop (fun i => s.a.getD i none) pos (bound - pos) n new_a1
    .ok { s with capacity := new_capacity, ija := new_ija2, a := new_a2 }

/-- The in-place tail shift of `vector_insert`'s no-resize branch:
`for (i = 0; i < size - pos; ++i) arr[size+n-1-i] = arr[size-1-i]`,
reading the partially-shifted array exactly as the C code does. -/
def shift_tail_go (size n : Nat) : Nat → Nat → List (Option α) → List (Option α)
  | _, 0, l => l
  | i, rem + 1, l =>
    shift_tail_go size n (i + 1) rem (l.set (size + n - 1 - i) (l.getD (size - 1 - i) none))

/-- The first phase of `vector_insert`: resize if the capacity is
insufficient, otherwise shift the tail `[pos, size)` rightward by `n` in
place from the end. -/
def vector_insert_shift (s : YaleStorageM) (pos n : Nat) (struct_only : Bool) :
    Except YErr YaleStorageM :=
  let size := get_size_m s
  if size + n > s.capacity then vector_insert_resize s size pos n struct_only
  else
    let ija' := shift_tail_go size n 0 (size - pos) s.ija
    let a' := if struct_only then s.a else shift_tail_go size n 0 (size - pos) s.a
    .ok { s with ija := ija', a := a' }

/-- `vector_insert` (yale.cpp 976-1031): insert `n` contiguous slots with
column keys `j` (and values `vals` unless `struct_only`) at `pos`. -/
def vector_insert (s : YaleStorageM) (pos : Nat) (j : List Nat) (vals : List Int)
    (n : Nat) (struct_only : Bool) : Except YErr (YaleStorageM × Char) :=
  if pos < s.shape0 then .error .posBeforeJa
  else
    match vector_insert_shift s pos n struct_only with
    | .error e => .error e
    | .ok s1 =>
      let ija2 := copy_loop (fun i => some (j.getD i 0)) 0 n pos s1.ija
      let a2 := if struct_only then s1.a else copy_loop (fun i => some (vals.getD i 0)) 0 n pos s1.a
      .ok ({ s1 with ija := ija2, a := a2 }, 'i')

/-- The loop of `increment_ia_after`: add `n` to `ija[p]` for
`p = i+1 … ija_size` ("garbage in, garbage out": `none` cells stay
`none`). -/
def incr_loop (n : Nat) : Nat → Nat → List (Option Nat) → List (Option Nat)
  | _, 0, l => l
  | p, rem + 1, l => incr_loop n (p + 1) rem (l.set p ((l.getD p none).map (· + n)))

/-- `increment_ia_after` (yale.cpp 1036-1044). -/
def increment_ia_after (s : YaleStorageM) (ija_size i n : Nat) : YaleStorageM :=
  { s with ija := incr_loop n (i + 1) (ija_size - i) s.ija }

/-- `insert_search` (yale.cpp 1049-1071), with the same fuel treatment as
`binary_search`: returns `(position, found)`. -/
def insert_search_go (s : YaleStorageM) (key : Nat) : Nat → Nat → Nat → Nat × Bool
  | 0, left, _ => (left, false)
  | fuel + 1, left, right =>
    if left > right then (left, false)
    else
      let mid := (left + right) / 2
      let mid_j := ijaRead s mid
      if mid_j = key then (mid, true)
      else if mid_j > key then insert_search_go s key fuel left (mid - 1)
      else insert_search_go s key fuel (mid + 1) right

def insert_search (s : YaleStorageM) (left right key : Nat) : Nat × Bool :=
  insert_search_go s key (right + 1 - left) left right

/-- `set` (yale.cpp 439-483): diagonal overwrite (`'r'`), insertion into
an empty row, in-place replacement of a found column (`'r'`), or
insertion at the searched position; structural insertions run
`increment_ia_after(shape0, row, 1)` and bump `ndnz`. -/
def set (s : YaleStorageM) (r c : Nat) (v : Int) : Except YErr (YaleStorageM × Char) :=
  if r = c then .ok ({ s with a := s.a.set r (some v) }, 'r')
  else if s.ija.getD r none = s.ija.getD (r + 1) none then
    match vector_insert s (ijaRead s r) [c] [v] 1 false with
    | .error e => .error e
    | .ok (s1, t) =>
      .ok ({ increment_ia_after s1 s1.shape0 r 1 with ndnz := s1.ndnz + 1 }, t)
  else
    if (insert_search s (ijaRead s r) (ijaRead s (r + 1) - 1) c).2 then
      .ok ({ s with
             ija := s.ija.set (insert_search s (ijaRead s r) (ijaRead s (r + 1) - 1) c).1 (some c),
             a := s.a.set (insert_search s (ijaRead s r) (ijaRead s (r + 1) - 1) c).1 (some v) }, 'r')
    else
      match vector_insert s (insert_search s (ijaRead s r) (ijaRead s (r + 1) - 1) c).1
          [c] [v] 1 false with
      | .error e => .error e
      | .ok (s1, t) =>
        .ok ({ increment_ia_after s1 s1.shape0 r 1 with ndnz := s1.ndnz + 1 }, t)

/-- Structural invariants over the mutable representation: allocated
lengths, row pointers present and monotone starting at `shape0+1`,
sentinel zero present, and every slot of every row range initialized with
strictly ascending column indices that avoid the diagonal and stay inside
the shape. -/
def WFm (s : YaleStorageM) : Prop :=
  s.ija.length = s.capacity ∧
  s.a.length = s.capacity ∧
  1 ≤ s.shape0 ∧
  1 ≤ s.shape1 ∧
  s.ija.getD 0 none = some (s.shape0 + 1) ∧
  (∀ i, i < s.shape0 + 1 → (s.ija.getD i none).isSome = true) ∧
  (∀ i, i < s.shape0 → ijaRead s i ≤ ijaRead s (i + 1)) ∧
  get_size_m s ≤ s.capacity ∧
  s.a.getD s.shape0 none = some 0 ∧
  (∀ i, i < s.shape0 → ∀ p, p < ijaRead s (i + 1) → ijaRead s i ≤ p →
     (s.ija.getD p none).isSome = true ∧ (s.a.getD p none).isSome = true ∧
     ijaRead s p ≠ i ∧ ijaRead s p < s.shape1) ∧
  (∀ i, i < s.shape0 → ∀ q, q < ijaRead s (i + 1) → ∀ p, p < q → ijaRead s i ≤ p →
     ijaRead s p < ijaRead s q)

set_option synthInstance.maxSize 2000 in
instance (s : YaleStorageM) : Decidable (WFm s) := by
  unfold WFm; infer_instance

/-! ### Copy/cast subsystem (`cast_copy`, `copy_alloc_struct`,
yale.cpp lines 1080-1137) -/

/-- `copy_alloc_struct` (yale.cpp 1117-1137): fresh struct with the same
shape/itype/ndnz, the requested capacity and dtype; copies the IJA prefix
`[0, get_size rhs)` and leaves everything else (notably all of `A`)
uninitialized.  The `new_size` argument is accepted and unused, as in the
source. -/
def copy_alloc_struct (rhs : YaleStorage) (new_dtype new_capacity _new_size : Nat) :
    YaleStorageM :=
  { shape0 := rhs.shape0, shape1 := rhs.shape1, dtype := new_dtype, itype := rhs.itype,
    ndnz := rhs.ndnz, capacity := new_capacity,
    ija := copy_loop (fun i => some (ijaAt rhs i)) 0 (get_size rhs) 0
      (List.replicate new_capacity none),
    a := List.replicate new_capacity none }

/-- `cast_copy` (yale.cpp 1080-1103): allocate a struct copy, then fill
`A[0, size)` — `memcpy` when the dtype is unchanged, element-by-element
conversion (`conv_val`, standing for the C++ implicit `RDType → LDType`
conversion) otherwise. -/
def cast_copy (rhs : YaleStorage) (new_dtype : Nat) (conv_val : Int → Int) : YaleStorageM :=
  let size := get_size rhs
  let lhs := copy_alloc_struct rhs new_dtype rhs.capacity size
  if rhs.dtype = new_dtype then
    { lhs with a := copy_loop (fun i => some (aAt rhs i)) 0 size 0 lhs.a }
  else
    { lhs with a := copy_loop (fun i => some (conv_val (aAt rhs i))) 0 size 0 lhs.a }

/-! ### Concrete storages for the insertion-subsystem claims -/

/-- Full-to-capacity 2×3 storage holding diag `[10,20]` and cell
`(0,2) = 7`: `IJA=[3,4,4,2]`, `A=[10,20,0,7]`, capacity 4. -/
def yale_c2 : YaleStorageM :=
  { shape0 := 2, shape1 := 3, dtype := 0, itype := 0,
    ija := [some 3, some 4, some 4, some 2], a := [some 10, some 20, some 0, some 7],
    ndnz := 1, capacity := 4 }

/-- Empty 3×3 storage at capacity 4 (its minimal size). -/
def yale_c3 : YaleStorageM :=
  { shape0 := 3, shape1 := 3, dtype := 0, itype := 0,
    ija := [some 4, some 4, some 4, some 4], a := [some 0, some 0, some 0, some 0],
    ndnz := 0, capacity := 4 }

/-- Full-to-capacity 2×3 storage holding diag `[1,2]` and cell
`(0,2) = 9`. -/
def yale_c6 : YaleStorageM :=
  { shape0 := 2, shape1 := 3, dtype := 0, itype := 0,
    ija := [some 3, some 4, some 4, some 2], a := [some 1, some 2, some 0, some 9],
    ndnz := 1, capacity := 4 }

/-- Well-formed 2×3 storage with spare capacity, diag `[2,3]` and cell
`(0,1) = 7`. -/
def yale_c10 : YaleStorageM :=
  { shape0 := 2, shape1 := 3, dtype := 0, itype := 0,
    ija := [some 3, some 4, some 4, some 1, none, none],
    a := [some 2, some 3, some 0, some 7, none, none],
    ndnz := 1, capacity := 6 }

end NmYale

namespace NmYale

/-! ### Elementwise engine (`ew_op`, yale.cpp lines 636-871)

The operation tag `ewop_t` and the value-level `ew_op_switch` template live
in the project's headers, not under `src/`; only the non-comparison
arithmetic subset reachable from `ew_op` (yale.cpp 1506: ops below
`NUM_NONCOMP_EWOPS`) is modelled. -/

/-- Modelled from the spec: the non-comparison elementwise operations the
engine dispatches on (`ewop_t` is declared in a header outside `src/`);
the spec's section 4.3 singles out the multiplicative op's skip rule. -/
inductive Ewop
  | add
  | sub
  | mul
  | div
deriving Repr, DecidableEq

/-- Modelled from the spec: the value-level combine `ew_op_switch`
(defined in a header outside `src/`) on the embedding's `Int` values. -/
def ew_op_switch (op : Ewop) (a b : Int) : Int :=
  match op with
  | .add => a + b
  | .sub => a - b
  | .mul => a * b
  | .div => a / b

/-- Modelled from the spec: `NM_YALE_MINIMUM` (a macro in a header outside
`src/`) — the smallest capacity `nm_yale_storage_create` will allocate,
`2*rows + 2` in the repository headers; the spec only requires
`capacity ≥ rows + ndnz + 1`, which this dominates for an empty store. -/
def NM_YALE_MINIMUM (shape0 : Nat) : Nat := 2 * shape0 + 2

/-- The capacity clamp of `nm_yale_storage_create` (yale.cpp 1541-1551):
requested capacity bounded below by `NM_YALE_MINIMUM` and above by
`max_size`. -/
def yale_create_capacity (shape0 shape1 init_capacity : Nat) : Nat :=
  if init_capacity < NM_YALE_MINIMUM shape0 then NM_YALE_MINIMUM shape0
  else if init_capacity > max_size shape0 shape1 then max_size shape0 shape1
  else init_capacity

/-- The diagonal pass of `ew_op` (yale.cpp 670-672): combine the two
diagonals index by index. -/
def ew_diag_loop (op : Ewop) (l r : YaleStorage) : Nat → Nat → List Int → List Int
  | _, 0, da => da
  | i, rem + 1, da =>
    ew_diag_loop op l r (i + 1) rem (da.set i (ew_op_switch op (aAt l i) (aAt r i)))

/-- The per-row two-pointer merge of `ew_op` (yale.cpp 715-791), with the
source's local variables `la_index`, `ra_index`, `da_index` and the
destination arrays as state.  `off` is `a_index_offset = shape0 + 1`; the
column reads `YALE_IJ(x)[i]` are `ija[off + i]` and the re-based value
reads `xa[i]` are `a[off + i]`.  The loop runs while both row ranges have
entries; each iteration advances at least one of `la`/`ra`, which the
wrapper's fuel accounts for. -/
def ew_merge_go (op : Ewop) (l r : YaleStorage) (off la_max ra_max : Nat) :
    Nat → Nat → Nat → Nat → List Nat → List Int →
      Nat × Nat × Nat × List Nat × List Int
  | 0, la, ra, da, ijl, al => (la, ra, da, ijl, al)
  | fuel + 1, la, ra, da, ijl, al =>
    if la < la_max ∧ ra < ra_max then
      if ijaAt l (off + la) = ijaAt r (off + ra) then
        if ew_op_switch op (aAt l (off + la)) (aAt r (off + ra)) ≠ 0 then
          ew_merge_go op l r off la_max ra_max fuel (la + 1) (ra + 1) (da + 1)
            (ijl.set (off + da) (ijaAt l (off + la)))
            (al.set (off + da) (ew_op_switch op (aAt l (off + la)) (aAt r (off + ra))))
        else
          ew_merge_go op l r off la_max ra_max fuel (la + 1) (ra + 1) da ijl al
      else if ijaAt l (off + la) < ijaAt r (off + ra) then
        if op ≠ Ewop.mul then
          if ew_op_switch op (aAt l (off + la)) 0 ≠ 0 then
            ew_merge_go op l r off la_max ra_max fuel (la + 1) ra (da + 1)
              (ijl.set (off + da) (ijaAt l (off + la)))
              (al.set (off + da) (ew_op_switch op (aAt l (off + la)) 0))
          else ew_merge_go op l r off la_max ra_max fuel (la + 1) ra da ijl al
        else ew_merge_go op l r off la_max ra_max fuel (la + 1) ra da ijl al
      else
        if op ≠ Ewop.mul then
          if ew_op_switch op 0 (aAt r (off + ra)) ≠ 0 then
            ew_merge_go op l r off la_max ra_max fuel la (ra + 1) (da + 1)
              (ijl.set (off + da) (ijaAt r (off + ra)))
              (al.set (off + da) (ew_op_switch op 0 (aAt r (off + ra))))
          else ew_merge_go op l r off la_max ra_max fuel la (ra + 1) da ijl al
        else ew_merge_go op l r off la_max ra_max fuel la (ra + 1) da ijl al
    else (la, ra, da, ijl, al)

/-- The left-remainder loop of a row (yale.cpp 803-822), reached only for
non-multiplicative ops. -/
def ew_tail_left (op : Ewop) (l : YaleStorage) (off la_max : Nat) :
    Nat → Nat → Nat → List Nat → List Int → Nat × Nat × List Nat × List Int
  | 0, la, da, ijl, al => (la, da, ijl, al)
  | fuel + 1, la, da, ijl, al =>
    if la < la_max then
      if ew_op_switch op (aAt l (off + la)) 0 ≠ 0 then
        ew_tail_left op l off la_max fuel (la + 1) (da + 1)
          (ijl.set (off + da) (ijaAt l (off + la)))
          (al.set (off + da) (ew_op_switch op (aAt l (off + la)) 0))
      else ew_tail_left op l off la_max fuel (la + 1) da ijl al
    else (la, da, ijl, al)

/-- The right-remainder loop of a row (yale.cpp 824-843), reached only for
non-multiplicative ops. -/
def ew_tail_right (op : Ewop) (r : YaleStorage) (off ra_max : Nat) :
    Nat → Nat → Nat → List Nat → List Int → Nat × Nat × List Nat × List Int
  | 0, ra, da, ijl, al => (ra, da, ijl, al)
  | fuel + 1, ra, da, ijl, al =>
    if ra < ra_max then
      if ew_op_switch op 0 (aAt r (off + ra)) ≠ 0 then
        ew_tail_right op r off ra_max fuel (ra + 1) (da + 1)
          (ijl.set (off + da) (ijaAt r (off + ra)))
          (al.set (off + da) (ew_op_switch op 0 (aAt r (off + ra))))
      else ew_tail_right op r off ra_max fuel (ra + 1) da ijl al
    else (ra, da, ijl, al)

/-- The row loop of `ew_op` (yale.cpp 692-851): write the row's left
bound `IA(dest)[i] = da + off`, merge the two rows, run the remainder
loops when the op is not multiplicative, then snap `la`/`ra` to the row
maxima. -/
def ew_rows_go (op : Ewop) (l r : YaleStorage) (off : Nat) :
    Nat → Nat → Nat × Nat × Nat × List Nat × List Int →
      Nat × Nat × Nat × List Nat × List Int
  | _, 0, st => st
  | i, rem + 1, (la, ra, da, ijl, al) =>
    let la_max := ijaAt l (i + 1) - off
    let ra_max := ijaAt r (i + 1) - off
    let st1 := ew_merge_go op l r off la_max ra_max ((la_max - la) + (ra_max - ra))
      la ra da (ijl.set i (da + off)) al
    let st2 :=
      if op ≠ Ewop.mul then
        let t1 := ew_tail_left op l off la_max (la_max - st1.1) st1.1 st1.2.2.1
          st1.2.2.2.1 st1.2.2.2.2
        let t2 := ew_tail_right op r off ra_max (ra_max - st1.2.1) st1.2.1 t1.2.1
          t1.2.2.1 t1.2.2.2
        (t1.1, t2.1, t2.2.1, t2.2.2.1, t2.2.2.2)
      else st1
    ew_rows_go op l r off (i + 1) rem (la_max, ra_max, st2.2.2.1, st2.2.2.2.1, st2.2.2.2.2)

/-- The machine state of `ew_op` after the row loop: destination arrays
allocated at the capacity `min(l.ndnz + r.ndnz + shape0, shape0*shape1)`
clamped by the create routine, diagonal combined and separator zeroed
(yale.cpp 660-689), then all rows merged.  The freshly allocated arrays'
uninitialized slots are modelled as `0`; every slot below the used size
is written before the result is read. -/
def ew_state (op : Ewop) (l r : YaleStorage) :
    Nat × Nat × Nat × List Nat × List Int :=
  ew_rows_go op l r (l.shape0 + 1) 0 l.shape0
    (0, 0, 0,
      List.replicate (yale_create_capacity l.shape0 l.shape1
        (min (l.ndnz + r.ndnz + l.shape0) (l.shape0 * l.shape1))) 0,
      (ew_diag_loop op l r 0 l.shape0
        (List.replicate (yale_create_capacity l.shape0 l.shape1
          (min (l.ndnz + r.ndnz + l.shape0) (l.shape0 * l.shape1))) 0)).set l.shape0 0)

/-- `ew_op` (yale.cpp 636-871): run the diagonal and row passes, write
the final row bound `ndnz + shape0 + 1`, and shrink (`realloc`) both
arrays to the used size `shape0 + ndnz + 1`. -/
def ew_op (op : Ewop) (l r : YaleStorage) (dtype : Nat) : YaleStorage :=
  let st := ew_state op l r
  let ndnz := st.2.2.1
  let cap2 := l.shape0 + ndnz + 1
  { shape0 := l.shape0, shape1 := l.shape1, dtype := dtype, itype := l.itype,
    ija := (st.2.2.2.1.set l.shape0 (ndnz + (l.shape0 + 1))).take cap2,
    a := st.2.2.2.2.take cap2,
    ndnz := ndnz, capacity := cap2 }

/-! ### Lemmas about binary search and `ref` -/

/-- Soundness: a non-negative result of `binary_search_go` is a position in
`[left, right]` whose column is `key`. -/
theorem binary_search_go_sound (s : YaleStorage) (key : Nat) :
    ∀ fuel left right, binary_search_go s key fuel left right ≠ -1 →
      ∃ m : Nat, binary_search_go s key fuel left right = (m : Int) ∧
        left ≤ m ∧ m ≤ right ∧ ijaAt s m = key := by
  intro fuel
  induction fuel with
  | zero => intro left right h; simp [binary_search_go] at h
  | succ n ih =>
    intro left right h
    simp only [binary_search_go] at h ⊢
    by_cases hlr : left > right
    · rw [if_pos hlr] at h; exact absurd rfl h
    · rw [if_neg hlr] at h ⊢
      have hle : left ≤ right := by omega
      generalize hmid : (left + right) / 2 = mid at h ⊢
      have hmid_ge : left ≤ mid := by omega
      have hmid_le : mid ≤ right := by omega
      by_cases h1 : ijaAt s mid = key
      · rw [if_pos h1] at h ⊢
        exact ⟨mid, rfl, hmid_ge, hmid_le, h1⟩
      · rw [if_neg h1] at h ⊢
        by_cases h2 : ijaAt s mid > key
        · rw [if_pos h2] at h ⊢
          obtain ⟨m, hm, h3, h4, h5⟩ := ih left (mid - 1) h
          exact ⟨m, hm, h3, by omega, h5⟩
        · rw [if_neg h2] at h ⊢
          obtain ⟨m, hm, h3, h4, h5⟩ := ih (mid + 1) right h
          exact ⟨m, hm, by omega, h4, h5⟩

/-- Completeness on a sorted interval (with `1 ≤ left`, true for every
use inside the storage since row ranges start after the row pointers):
if `key` occurs in `[left, right]` then the search does not return `-1`. -/
theorem binary_search_go_complete (s : YaleStorage) (key : Nat) :
    ∀ fuel left right, 1 ≤ left → right + 1 - left ≤ fuel →
      (∀ p q, left ≤ p → p < q → q ≤ right → ijaAt s p < ijaAt s q) →
      ∀ m, left ≤ m → m ≤ right → ijaAt s m = key →
      binary_search_go s key fuel left right ≠ -1 := by
  intro fuel
  induction fuel with
  | zero => intro left right _ hf _ m h1 h2 _; omega
  | succ n ih =>
    intro left right hl hf hsort m h1 h2 hkey
    simp only [binary_search_go]
    have hlr : ¬ left > right := by omega
    rw [if_neg hlr]
    generalize hmid : (left + right) / 2 = mid
    have hmid_ge : left ≤ mid := by omega
    have hmid_le : mid ≤ right := by omega
    by_cases heq : ijaAt s mid = key
    · rw [if_pos heq]
      intro hcon
      omega
    · rw [if_neg heq]
      by_cases hgt : ijaAt s mid > key
      · rw [if_pos hgt]
        have hmlt : m < mid := by
          by_contra hge
          push_neg at hge
          rcases Nat.lt_or_ge mid m with hc | hc
          · have := hsort mid m hmid_ge hc h2
            omega
          · have : m = mid := by omega
            rw [this] at hkey; exact heq hkey
        exact ih left (mid - 1) hl (by omega)
          (fun p q hp hpq hq => hsort p q hp hpq (by omega))
          m h1 (by omega) hkey
      · rw [if_neg hgt]
        have hlt' : ijaAt s mid < key := by omega
        have hmgt : mid < m := by
          by_contra hge
          push_neg at hge
          rcases Nat.lt_or_ge m mid with hc | hc
          · have := hsort m mid h1 hc hmid_le
            omega
          · have : m = mid := by omega
            rw [this] at hkey; exact heq hkey
        exact ih (mid + 1) right (by omega) (by omega)
          (fun p q hp hpq hq => hsort p q (by omega) hpq hq)
          m (by omega) h2 hkey

/-- Row pointers never drop below `shape0 + 1` in a well-formed storage. -/
theorem WF.row_ptr_lower (s : YaleStorage) (h : WF s) :
    ∀ i, i ≤ s.shape0 → s.shape0 + 1 ≤ ijaAt s i := by
  obtain ⟨-, -, -, -, h0, hmono, -⟩ := h
  intro i
  induction i with
  | zero => intro _; omega
  | succ k ih =>
    intro hk
    have := hmono k (by omega)
    have := ih (by omega)
    omega

/-- In a well-formed storage, `ref` on a cell whose column is stored in the
row's range returns exactly that slot. -/
theorem ref_index_found (s : YaleStorage) (h : WF s) (i c p : Nat)
    (hi : i < s.shape0) (hp1 : ijaAt s i ≤ p) (hp2 : p < ijaAt s (i + 1))
    (hpc : ijaAt s p = c) : ref_index s i c = p := by
  have hlow := WF.row_ptr_lower s h i (by omega)
  obtain ⟨-, -, -, -, -, -, -, -, hstrict, hcols⟩ := h
  have hci : c ≠ i := by
    have := hcols i hi p hp2 hp1
    rw [hpc] at this
    exact this.1
  unfold ref_index
  rw [if_neg (by omega)]
  have hne : ijaAt s i ≠ ijaAt s (i + 1) := by omega
  rw [if_neg hne]
  have hnonempty : ijaAt s i < ijaAt s (i + 1) := by omega
  have hsort : ∀ u v, ijaAt s i ≤ u → u < v → v ≤ ijaAt s (i + 1) - 1 →
      ijaAt s u < ijaAt s v := by
    intro u v hu huv hv
    exact hstrict i hi v (by omega) u huv hu
  have hcmpl := binary_search_go_complete s c (ijaAt s (i+1) - 1 + 1 - ijaAt s i)
    (ijaAt s i) (ijaAt s (i+1) - 1) (by omega) (le_refl _) hsort p hp1 (by omega) hpc
  unfold binary_search
  obtain ⟨m, hm, hm1, hm2, hm3⟩ := binary_search_go_sound s c _ (ijaAt s i) (ijaAt s (i+1) - 1) hcmpl
  rw [hm]
  have hmp : m = p := by
    rcases Nat.lt_trichotomy m p with hc | hc | hc
    · have := hsort m p hm1 hc (by omega); rw [hpc, hm3] at this; omega
    · exact hc
    · have := hsort p m hp1 hc (by omega); rw [hpc, hm3] at this; omega
  subst hmp
  have hcond : ((m : Int) ≠ -1 ∧ ijaAt s ((m : Int)).toNat = c) :=
    ⟨by omega, by simpa using hm3⟩
  rw [if_pos hcond]
  simp

/-- In a well-formed storage, `ref` on an off-diagonal cell whose column is
not stored returns the sentinel slot `shape0`. -/
theorem ref_index_not_found (s : YaleStorage) (i c : Nat)
    (hic : i ≠ c) (hns : ¬ StoredAt s i c) : ref_index s i c = s.shape0 := by
  unfold ref_index
  rw [if_neg hic]
  by_cases hemp : ijaAt s i = ijaAt s (i + 1)
  · rw [if_pos hemp]
  · rw [if_neg hemp]
    by_cases hbs : binary_search s (ijaAt s i) (ijaAt s (i + 1) - 1) c = -1
    · rw [if_neg]
      rintro ⟨hne, -⟩
      exact hne hbs
    · exfalso
      obtain ⟨m, hm, hm1, hm2, hm3⟩ :=
        binary_search_go_sound s c _ (ijaAt s i) (ijaAt s (i+1) - 1) hbs
      exact hns ⟨m, hm1, by omega, hm3⟩

/-- Diagonal access. -/
theorem ref_index_diag (s : YaleStorage) (r : Nat) : ref_index s r r = r := by
  unfold ref_index; rw [if_pos rfl]

/-- Claim C4: for every well-formed storage and every single-cell
coordinate inside the shape, `ref` never raises (the embedding of the
read path is a total function and the `.error` branch is taken only for
non-single slices) and never mutates structure (it is a pure function of
the storage); it returns the diagonal slot when `row = col`, the stored
slot when the column is stored in the row's off-diagonal range, and the
sentinel zero slot `A[rows]` otherwise. -/
theorem claim_c4_ref_never_raises_and_is_correct (s : YaleStorage) (h : WF s)
    (r c : Nat) (hr : r < s.shape0) (hc : c < s.shape1) :
    ref s true r c = .ok (ref_index s r c) ∧
    (r = c → ref_index s r c = r) ∧
    (∀ p, ijaAt s r ≤ p → p < ijaAt s (r + 1) → ijaAt s p = c → ref_index s r c = p) ∧
    (r ≠ c → ¬ StoredAt s r c →
      ref_index s r c = s.shape0 ∧ refValue s r c = 0) := by
  refine ⟨rfl, ?_, ?_, ?_⟩
  · intro hrc
    subst hrc
    exact ref_index_diag s r
  · intro p hp1 hp2 hp3
    exact ref_index_found s h r c p hr hp1 hp2 hp3
  · intro hrc hns
    have hidx := ref_index_not_found s r c hrc hns
    refine ⟨hidx, ?_⟩
    unfold refValue
    rw [hidx]
    exact h.2.2.2.2.2.2.2.1

/-- Witness for C4 at the concrete well-formed storage `yale_c1_left`,
cell `(0, 2)` (a stored off-diagonal cell). -/
theorem claim_c4_witness :
    WF yale_c1_left ∧ 0 < yale_c1_left.shape0 ∧ 2 < yale_c1_left.shape1 ∧
    (ref yale_c1_left true 0 2 = .ok (ref_index yale_c1_left 0 2) ∧
     (0 = 2 → ref_index yale_c1_left 0 2 = 0) ∧
     (∀ p, ijaAt yale_c1_left 0 ≤ p → p < ijaAt yale_c1_left (0 + 1) →
        ijaAt yale_c1_left p = 2 → ref_index yale_c1_left 0 2 = p) ∧
     ((0 : Nat) ≠ 2 → ¬ StoredAt yale_c1_left 0 2 →
        ref_index yale_c1_left 0 2 = yale_c1_left.shape0 ∧
        refValue yale_c1_left 0 2 = 0)) :=
  ⟨by decide, by decide, by decide,
    claim_c4_ref_never_raises_and_is_correct yale_c1_left (by decide) 0 2
      (by decide) (by decide)⟩

/-- Claim C1 (code bug): the two storages `yale_c1_left`/`yale_c1_right`
are well-formed, same shape and dtype, and differ in exactly one cell —
`(0,2)` reads `9` on the left and `0` on the right — yet `eqeq` returns
`true`.  The cause is the slip at yale.cpp line 586: the right-only branch
of `ndrow_eqeq_ndrow` sets `l_no_more` instead of `r_no_more` when the
right row is exhausted, so after the `(0,1)` match the loop consumes the
right side's neighbouring slot `a[4]` (row 1's explicitly stored zero)
instead of comparing the left's remaining column 2 against zero, and then
both flags read true and the merge reports equality. -/
theorem claim_c1_eqeq_misses_single_cell_difference :
    WF yale_c1_left ∧ WF yale_c1_right ∧
    yale_c1_left.shape0 = yale_c1_right.shape0 ∧
    yale_c1_left.shape1 = yale_c1_right.shape1 ∧
    yale_c1_left.dtype = yale_c1_right.dtype ∧
    refValue yale_c1_left 0 2 = 9 ∧ refValue yale_c1_right 0 2 = 0 ∧
    (∀ i, i < 2 → ∀ j, j < 3 → ¬(i = 0 ∧ j = 2) →
      refValue yale_c1_left i j = refValue yale_c1_right i j) ∧
    eqeq 100 yale_c1_left yale_c1_right = some true := by decide

theorem ndrow_c8_diverges_aux : ∀ fuel k, 4 ≤ k →
    ndrow_eqeq_go yale_c8_left yale_c8_right 3 4 fuel 3 k 1 2 1 true false = none := by
  intro fuel
  induction fuel with
  | zero => intro k hk; rfl
  | succ n ih =>
    intro k hk
    have hread : aAt yale_c8_right k = 0 := by
      unfold aAt
      rw [List.getD_eq_default]
      simp only [yale_c8_right]
      simp
      omega
    simp only [ndrow_eqeq_go]
    rw [if_neg (by decide), if_neg (by decide), if_pos (by decide),
      if_neg (by rw [hread]; decide), if_neg (by omega)]
    exact ih (k + 1) (by omega)

/-- Claim C8 (code bug): on the well-formed pair
`yale_c8_left`/`yale_c8_right`, whose row-0 off-diagonal ranges `[2,3)`
and `[2,4)` are both non-empty, the two-pointer merge performs a read of
the right `A` array at index `r_ija_next = 4` (the bounds-instrumented
merge reports `.oob`), and the uninstrumented merge — which models those
out-of-allocation reads as reading zeroes — never terminates for any
fuel.  Both failures stem from the `l_no_more` slip at yale.cpp 586. -/
theorem claim_c8_merge_out_of_range_and_diverges :
    WF yale_c8_left ∧ WF yale_c8_right ∧
    ndrow_is_empty yale_c8_left 2 3 = false ∧
    ndrow_is_empty yale_c8_right 2 4 = false ∧
    ndrow_eqeq_checked 100 yale_c8_left yale_c8_right 2 3 2 4 = .oob ∧
    (∀ fuel, ndrow_eqeq_ndrow fuel yale_c8_left yale_c8_right 2 3 2 4 = none) := by
  refine ⟨by decide, by decide, by decide, by decide, by decide, ?_⟩
  intro fuel
  rcases fuel with _ | _ | n
  · rfl
  · decide
  · show ndrow_eqeq_go yale_c8_left yale_c8_right 3 4 (n + 2) 2 2 1 1 1 false false = none
    have step1 : ndrow_eqeq_go yale_c8_left yale_c8_right 3 4 (n + 2) 2 2 1 1 1 false false
        = ndrow_eqeq_go yale_c8_left yale_c8_right 3 4 (n + 1) 3 3 1 2 1 true false := by
      simp only [ndrow_eqeq_go]
      rw [if_neg (by decide), if_pos (by decide), if_neg (by decide)]
      norm_num [aAt, ijaAt, yale_c8_left, yale_c8_right]
    have step2 : ndrow_eqeq_go yale_c8_left yale_c8_right 3 4 (n + 1) 3 3 1 2 1 true false
        = ndrow_eqeq_go yale_c8_left yale_c8_right 3 4 n 3 4 1 2 1 true false := by
      simp only [ndrow_eqeq_go]
      rw [if_neg (by decide), if_neg (by decide), if_pos (by decide),
        if_neg (by decide), if_neg (by decide)]
    rw [step1, step2]
    exact ndrow_c8_diverges_aux n 4 (le_refl 4)

/-- Claim C2 (code bug): inserting one slot at `pos = 3` into the
full-to-capacity storage `yale_c2` (size 4, capacity 4, `pos ≥ rows`)
triggers a grow, after which the suffix slot `q = 3 ∈ [pos, size)` — old
key `2`, old value `7`, the stored cell `(0,2)` — does **not** appear at
`q + count = 4`: that slot is left uninitialized (`none`).  The suffix
copy loop of `vector_insert_resize` (yale.cpp 944-953) runs
`i ∈ [pos, current_size - pos + n - 1)`, which here is the empty range
`[3, 1)`, instead of `[pos, current_size) = [3, 4)` as its own comment
("Copy all values subsequent to the insertion site") requires. -/
theorem claim_c2_resize_drops_shifted_suffix :
    yale_c2.shape0 ≤ 3 ∧
    get_size_m yale_c2 = 4 ∧ yale_c2.capacity = 4 ∧
    yale_c2.ija.getD 3 none = some 2 ∧ yale_c2.a.getD 3 none = some 7 ∧
    (vector_insert yale_c2 3 [1] [5] 1 false).toOption.map
      (fun p => (p.2, p.1.ija.getD 4 none, p.1.a.getD 4 none)) =
      some ('i', none, none) := by decide

/-- Claim C3 counterexample: inserting `count = 7` slots into the empty
3×3 storage `yale_c3` (size 4, capacity 4, theoretical max 10).
`size + count = 11` exceeds the theoretical maximum, so the claim demands
a resource-exhaustion failure — but the grown capacity
`4 * 3 / 2 = 6 ≤ 10` skips the branch containing the `rb_raise`, the
insertion succeeds, and the new capacity `11` even exceeds the
theoretical maximum. -/
theorem claim_c3_counterexample_no_error_beyond_max :
    get_size_m yale_c3 + 7 > yale_c3.capacity ∧
    get_size_m yale_c3 + 7 > max_size yale_c3.shape0 yale_c3.shape1 ∧
    (vector_insert yale_c3 4 [0, 1, 2, 4, 5, 6, 7] [1, 1, 1, 1, 1, 1, 1] 7 false).toOption.map
      (fun p => p.1.capacity) = some 11 := by decide

/-- Claim C3 amended: on a growing insertion the new capacity is
`max (min (capacity * GROWTH_FACTOR) max_theoretical) (size + count)` —
so never less than `size + count`, and equal to
`min(max_theoretical, capacity * GROWTH_FACTOR)` whenever that already
covers `size + count` — but the resource-exhaustion error is raised if
and only if **both** `capacity * GROWTH_FACTOR` and `size + count` exceed
the theoretical maximum; when the grown capacity still fits, an
insertion with `size + count` beyond the theoretical maximum silently
succeeds with a capacity above that maximum. -/
theorem claim_c3_amended_resize_characterization (s : YaleStorageM)
    (current_size pos n : Nat) (struct_only : Bool) :
    resize_new_capacity s current_size n =
      max (min (GROWTH_CONSTANT_MUL s.capacity) (max_size s.shape0 s.shape1))
        (current_size + n) ∧
    (vector_insert_resize s current_size pos n struct_only = .error .noMem ↔
      (GROWTH_CONSTANT_MUL s.capacity > max_size s.shape0 s.shape1 ∧
       current_size + n > max_size s.shape0 s.shape1)) ∧
    (vector_insert_resize s current_size pos n struct_only).toOption.map (fun t => t.capacity) =
      (if GROWTH_CONSTANT_MUL s.capacity > max_size s.shape0 s.shape1 ∧
          current_size + n > max_size s.shape0 s.shape1 then none
       else some (resize_new_capacity s current_size n)) := by
  refine ⟨by unfold resize_new_capacity; dsimp only; split_ifs <;> omega, ?_⟩
  unfold vector_insert_resize
  by_cases h : GROWTH_CONSTANT_MUL s.capacity > max_size s.shape0 s.shape1 ∧
      current_size + n > max_size s.shape0 s.shape1
  · rw [if_pos h, if_pos h]
    exact ⟨⟨fun _ => h, fun _ => rfl⟩, rfl⟩
  · rw [if_neg h, if_neg h]
    exact ⟨⟨fun he => absurd he (by simp), fun hc => absurd hc h⟩, rfl⟩

/-- Claim C6 (code bug): `set (0,1) := 5` on the well-formed,
full-to-capacity storage `yale_c6` is a structural insertion that
triggers a capacity grow at `pos = 3 < size = 4`; because
`vector_insert_resize` drops the shifted suffix (see C2), the resulting
storage violates the structural invariants — row 0's range `[3, 5)` now
contains an uninitialized column slot at position 4 (and the stored cell
`(0,2) = 9` has been destroyed). -/
theorem claim_c6_set_breaks_invariants_on_grow :
    WFm yale_c6 ∧
    (set yale_c6 0 1 5).toOption.map (fun p => (p.2, decide (WFm p.1))) =
      some ('i', false) := by decide

/-! ### List helpers shared by several proofs -/

theorem list_getD_set_ne (l : List α) (i j : Nat) (x d : α) (h : i ≠ j) :
    (l.set i x).getD j d = l.getD j d := by
  simp [List.getD_eq_getElem?_getD, List.getElem?_set_ne h]

theorem list_getD_set_self (l : List α) (i : Nat) (x d : α) (h : i < l.length) :
    (l.set i x).getD i d = x := by
  simp [List.getD_eq_getElem?_getD, List.getElem?_set_self, h]

theorem list_set_getD_eq (l : List α) (i : Nat) (d : α) (h : i < l.length) :
    l.set i (l.getD i d) = l := by
  induction l generalizing i with
  | nil => simp at h
  | cons x xs ih =>
    cases i with
    | zero => simp [List.set, List.getD]
    | succ k =>
      simp only [List.set, List.getD_cons_succ, List.cons.injEq, true_and]
      exact ih k (by simpa using h)

/-! ### Support lemmas for the old-Yale round trip (C5): the inner fill
loop `cfoy_row` processed over window `List.range' p len` -/

theorem cfoy_row_fst (i : Nat) (jr : List Nat) (ar : List Int) :
    ∀ len p pp ijl al, (cfoy_row i jr ar len (p, pp, ijl, al)).1 = p + len := by
  intro len
  induction len with
  | zero => intro p pp ijl al; rfl
  | succ n ih =>
    intro p pp ijl al
    simp only [cfoy_row]
    by_cases h : i = jr.getD p 0
    · rw [if_pos h, ih]; omega
    · rw [if_neg h, ih]; omega

theorem cfoy_row_snd (i : Nat) (jr : List Nat) (ar : List Int) :
    ∀ len p pp ijl al,
      (cfoy_row i jr ar len (p, pp, ijl, al)).2.1 =
        pp + ((List.range' p len).filter (fun q => decide (jr.getD q 0 ≠ i))).length := by
  intro len
  induction len with
  | zero => intro p pp ijl al; rfl
  | succ n ih =>
    intro p pp ijl al
    simp only [cfoy_row]
    rw [List.range'_succ p n 1, List.filter_cons]
    by_cases h : i = jr.getD p 0
    · rw [if_pos h, if_neg (by simp only [decide_eq_true_eq]; exact fun hh => hh h.symm), ih]
    · rw [if_neg h, if_pos (by simp only [decide_eq_true_eq]; exact fun hh => h hh.symm), ih]
      simp only [List.length_cons]
      omega

theorem cfoy_row_len_ijl (i : Nat) (jr : List Nat) (ar : List Int) :
    ∀ len p pp ijl al,
      (cfoy_row i jr ar len (p, pp, ijl, al)).2.2.1.length = ijl.length := by
  intro len
  induction len with
  | zero => intro p pp ijl al; rfl
  | succ n ih =>
    intro p pp ijl al
    simp only [cfoy_row]
    by_cases h : i = jr.getD p 0
    · rw [if_pos h, ih]
    · rw [if_neg h, ih, List.length_set]

theorem cfoy_row_len_al (i : Nat) (jr : List Nat) (ar : List Int) :
    ∀ len p pp ijl al,
      (cfoy_row i jr ar len (p, pp, ijl, al)).2.2.2.length = al.length := by
  intro len
  induction len with
  | zero => intro p pp ijl al; rfl
  | succ n ih =>
    intro p pp ijl al
    simp only [cfoy_row]
    by_cases h : i = jr.getD p 0
    · rw [if_pos h, ih, List.length_set]
    · rw [if_neg h, ih, List.length_set]

theorem cfoy_row_ijl_frame (i : Nat) (jr : List Nat) (ar : List Int) :
    ∀ len p pp ijl al idx d,
      (idx < pp ∨
        pp + ((List.range' p len).filter (fun q => decide (jr.getD q 0 ≠ i))).length ≤ idx) →
      (cfoy_row i jr ar len (p, pp, ijl, al)).2.2.1.getD idx d = ijl.getD idx d := by
  intro len
  induction len with
  | zero => intro p pp ijl al idx d _; rfl
  | succ n ih =>
    intro p pp ijl al idx d hidx
    rw [List.range'_succ p n 1, List.filter_cons] at hidx
    simp only [cfoy_row]
    by_cases h : i = jr.getD p 0
    · rw [if_pos h]
      rw [if_neg (by simp only [decide_eq_true_eq]; exact fun hh => hh h.symm)] at hidx
      exact ih _ _ _ _ idx d hidx
    · rw [if_neg h]
      rw [if_pos (by simp only [decide_eq_true_eq]; exact fun hh => h hh.symm)] at hidx
      simp only [List.length_cons] at hidx
      rw [ih _ _ _ _ idx d (by omega), list_getD_set_ne _ _ _ _ _ (by omega)]

theorem cfoy_row_ijl_content (i : Nat) (jr : List Nat) (ar : List Int) :
    ∀ len p pp ijl al k d,
      pp + ((List.range' p len).filter (fun q => decide (jr.getD q 0 ≠ i))).length ≤
        ijl.length →
      k < ((List.range' p len).filter (fun q => decide (jr.getD q 0 ≠ i))).length →
      (cfoy_row i jr ar len (p, pp, ijl, al)).2.2.1.getD (pp + k) d =
        jr.getD (((List.range' p len).filter
          (fun q => decide (jr.getD q 0 ≠ i))).getD k 0) 0 := by
  intro len
  induction len with
  | zero => intro p pp ijl al k d _ hk; simp at hk
  | succ n ih =>
    intro p pp ijl al k d hlen hk
    rw [List.range'_succ p n 1, List.filter_cons] at hlen hk ⊢
    simp only [cfoy_row]
    by_cases h : i = jr.getD p 0
    · rw [if_pos h]
      rw [if_neg (by simp only [decide_eq_true_eq]; exact fun hh => hh h.symm)] at hlen hk ⊢
      exact ih _ _ _ _ k d hlen hk
    · rw [if_neg h]
      rw [if_pos (by simp only [decide_eq_true_eq]; exact fun hh => h hh.symm)] at hlen hk ⊢
      simp only [List.length_cons] at hlen hk
      cases k with
      | zero =>
        simp only [Nat.add_zero]
        rw [cfoy_row_ijl_frame i jr ar n (p + 1) (pp + 1) _ _ pp d (Or.inl (by omega))]
        rw [list_getD_set_self _ _ _ _ (by omega)]
        rfl
      | succ u =>
        have := ih (p + 1) (pp + 1) (ijl.set pp (jr.getD p 0)) (al.set pp (ar.getD p 0)) u d
          (by rw [List.length_set]; omega) (by omega)
        rw [show pp + (u + 1) = pp + 1 + u by omega, this]
        rfl

theorem cfoy_row_al_frame (i : Nat) (jr : List Nat) (ar : List Int) :
    ∀ len p pp ijl al idx d,
      idx ≠ i →
      (idx < pp ∨
        pp + ((List.range' p len).filter (fun q => decide (jr.getD q 0 ≠ i))).length ≤ idx) →
      (cfoy_row i jr ar len (p, pp, ijl, al)).2.2.2.getD idx d = al.getD idx d := by
  intro len
  induction len with
  | zero => intro p pp ijl al idx d _ _; rfl
  | succ n ih =>
    intro p pp ijl al idx d hne hidx
    rw [List.range'_succ p n 1, List.filter_cons] at hidx
    simp only [cfoy_row]
    by_cases h : i = jr.getD p 0
    · rw [if_pos h]
      rw [if_neg (by simp only [decide_eq_true_eq]; exact fun hh => hh h.symm)] at hidx
      rw [ih _ _ _ _ idx d hne hidx,
        list_getD_set_ne _ _ _ _ _ (fun hcon => hne hcon.symm)]
    · rw [if_neg h]
      rw [if_pos (by simp only [decide_eq_true_eq]; exact fun hh => h hh.symm)] at hidx
      simp only [List.length_cons] at hidx
      rw [ih _ _ _ _ idx d hne (by omega), list_getD_set_ne _ _ _ _ _ (by omega)]

theorem cfoy_row_al_content (i : Nat) (jr : List Nat) (ar : List Int) :
    ∀ len p pp ijl al k d,
      i < pp →
      pp + ((List.range' p len).filter (fun q => decide (jr.getD q 0 ≠ i))).length ≤
        al.length →
      k < ((List.range' p len).filter (fun q => decide (jr.getD q 0 ≠ i))).length →
      (cfoy_row i jr ar len (p, pp, ijl, al)).2.2.2.getD (pp + k) d =
        ar.getD (((List.range' p len).filter
          (fun q => decide (jr.getD q 0 ≠ i))).getD k 0) 0 := by
  intro len
  induction len with
  | zero => intro p pp ijl al k d _ _ hk; simp at hk
  | succ n ih =>
    intro p pp ijl al k d hip hlen hk
    rw [List.range'_succ p n 1, List.filter_cons] at hlen hk ⊢
    simp only [cfoy_row]
    by_cases h : i = jr.getD p 0
    · rw [if_pos h]
      rw [if_neg (by simp only [decide_eq_true_eq]; exact fun hh => hh h.symm)] at hlen hk ⊢
      exact ih _ _ _ _ k d hip (by rw [List.length_set]; omega) hk
    · rw [if_neg h]
      rw [if_pos (by simp only [decide_eq_true_eq]; exact fun hh => h hh.symm)] at hlen hk ⊢
      simp only [List.length_cons] at hlen hk
      cases k with
      | zero =>
        simp only [Nat.add_zero]
        rw [cfoy_row_al_frame i jr ar n (p + 1) (pp + 1) _ _ pp d (by omega)
          (Or.inl (by omega))]
        rw [list_getD_set_self _ _ _ _ (by omega)]
        rfl
      | succ u =>
        have := ih (p + 1) (pp + 1) (ijl.set pp (jr.getD p 0)) (al.set pp (ar.getD p 0)) u d
          (by omega) (by rw [List.length_set]; omega) (by omega)
        rw [show pp + (u + 1) = pp + 1 + u by omega, this]
        rfl

theorem cfoy_row_al_diag (i : Nat) (jr : List Nat) (ar : List Int) :
    ∀ len p pp ijl al d,
      i < pp → i < al.length →
      ((List.range' p len).filter (fun q => decide (jr.getD q 0 = i))).length ≤ 1 →
      (cfoy_row i jr ar len (p, pp, ijl, al)).2.2.2.getD i d =
        (match (List.range' p len).find? (fun q => decide (jr.getD q 0 = i)) with
         | some q => ar.getD q 0
         | none => al.getD i d) := by
  intro len
  induction len with
  | zero => intro p pp ijl al d _ _ _; rfl
  | succ n ih =>
    intro p pp ijl al d hip hlen huniq
    rw [List.range'_succ p n 1] at huniq ⊢
    rw [List.filter_cons] at huniq
    simp only [cfoy_row]
    by_cases h : i = jr.getD p 0
    · rw [if_pos (by simp only [decide_eq_true_eq]; exact h.symm)] at huniq
      simp only [List.length_cons] at huniq
      have hrest : (List.range' (p + 1) n).filter (fun q => decide (jr.getD q 0 = i)) = [] := by
        have hz : ((List.range' (p + 1) n).filter
            (fun q => decide (jr.getD q 0 = i))).length = 0 := by omega
        exact List.length_eq_zero.mp hz
      have hfindrest : (List.range' (p + 1) n).find?
          (fun q => decide (jr.getD q 0 = i)) = none := by
        rw [List.find?_eq_none]
        intro x hx
        have := List.filter_eq_nil_iff.mp hrest x hx
        simpa using this
      rw [if_pos h]
      rw [List.find?_cons_of_pos _ (by simp only [decide_eq_true_eq]; exact h.symm)]
      have hrec := ih (p + 1) pp ijl (al.set i (ar.getD p 0)) d hip
        (by rw [List.length_set]; omega) (by rw [hrest]; simp)
      rw [hrec, hfindrest]
      exact list_getD_set_self _ _ _ _ hlen
    · rw [if_neg (by simp only [decide_eq_true_eq]; exact fun hh => h hh.symm)] at huniq
      rw [if_neg h]
      rw [List.find?_cons_of_neg _ (by simp only [decide_eq_true_eq]; exact fun hh => h hh.symm)]
      have hrec := ih (p + 1) (pp + 1) (ijl.set pp (jr.getD p 0)) (al.set pp (ar.getD p 0)) d
        (by omega) (by rw [List.length_set]; omega) huniq
      rw [hrec]
      rcases hfind : (List.range' (p + 1) n).find? (fun q => decide (jr.getD q 0 = i)) with - | q
      · exact list_getD_set_ne _ _ _ _ _ (by omega)
      · rfl

/-- Characterization of the outer fill loop of `create_from_old_yale`:
starting at row `i` with `rem` rows to go, cursor `p` aligned to `ir[i]`
and write head `pp` past the diagonal region, the loop writes the row
starts, the concatenated non-diagonal columns/values, and the diagonal
values, and leaves every other slot untouched. -/
theorem cfoy_rows_spec (ir jr : List Nat) (ar : List Int) (shape0 : Nat) :
    ∀ rem i p pp ijl al,
      i + rem ≤ shape0 →
      p = ir.getD i 0 →
      shape0 + 1 ≤ pp →
      (∀ k, i ≤ k → k < i + rem → ir.getD k 0 ≤ ir.getD (k + 1) 0) →
      (∀ k, i ≤ k → k < i + rem →
        ((oy_row_positions ir k).filter (fun q => decide (jr.getD q 0 = k))).length ≤ 1) →
      pp + oy_nd_seg ir jr i rem ≤ ijl.length →
      ijl.length = al.length →
      shape0 < ijl.length →
      (cfoy_rows ir jr ar i rem (p, pp, ijl, al)).1 = ir.getD (i + rem) 0 ∧
      (cfoy_rows ir jr ar i rem (p, pp, ijl, al)).2.1 = pp + oy_nd_seg ir jr i rem ∧
      (cfoy_rows ir jr ar i rem (p, pp, ijl, al)).2.2.1.length = ijl.length ∧
      (cfoy_rows ir jr ar i rem (p, pp, ijl, al)).2.2.2.length = al.length ∧
      (∀ k d, i ≤ k → k < i + rem →
        (cfoy_rows ir jr ar i rem (p, pp, ijl, al)).2.2.1.getD k d =
          pp + oy_nd_seg ir jr i (k - i)) ∧
      (∀ k u d, i ≤ k → k < i + rem → u < oy_nd_cnt ir jr k →
        (cfoy_rows ir jr ar i rem (p, pp, ijl, al)).2.2.1.getD
            (pp + oy_nd_seg ir jr i (k - i) + u) d =
          jr.getD ((oy_nd_positions ir jr k).getD u 0) 0) ∧
      (∀ k u d, i ≤ k → k < i + rem → u < oy_nd_cnt ir jr k →
        (cfoy_rows ir jr ar i rem (p, pp, ijl, al)).2.2.2.getD
            (pp + oy_nd_seg ir jr i (k - i) + u) d =
          ar.getD ((oy_nd_positions ir jr k).getD u 0) 0) ∧
      (∀ k d, i ≤ k → k < i + rem →
        (cfoy_rows ir jr ar i rem (p, pp, ijl, al)).2.2.2.getD k d =
          (match (oy_row_positions ir k).find? (fun q => decide (jr.getD q 0 = k)) with
           | some q => ar.getD q 0
           | none => al.getD k d)) ∧
      (∀ idx d, (idx < i ∨ i + rem ≤ idx) →
        (idx < pp ∨ pp + oy_nd_seg ir jr i rem ≤ idx) →
        (cfoy_rows ir jr ar i rem (p, pp, ijl, al)).2.2.1.getD idx d = ijl.getD idx d) ∧
      (∀ idx d, (idx < i ∨ i + rem ≤ idx) →
        (idx < pp ∨ pp + oy_nd_seg ir jr i rem ≤ idx) →
        (cfoy_rows ir jr ar i rem (p, pp, ijl, al)).2.2.2.getD idx d = al.getD idx d) := by
  intro rem
  induction rem with
  | zero =>
    intro i p pp ijl al h1 hp h3 h4 h5 h6 h7 h8
    subst hp
    refine ⟨rfl, rfl, rfl, rfl, ?_, ?_, ?_, ?_, ?_, ?_⟩
    · intro k d hk1 hk2; exact (by omega : False).elim
    · intro k u d hk1 hk2 _; exact (by omega : False).elim
    · intro k u d hk1 hk2 _; exact (by omega : False).elim
    · intro k d hk1 hk2; exact (by omega : False).elim
    · intro idx d _ _; rfl
    · intro idx d _ _; rfl
  | succ n ih =>
    intro i p pp ijl al h1 hp h3 h4 h5 h6 h7 h8
    subst hp
    simp only [cfoy_rows]
    have hmono_i := h4 i (le_refl i) (by omega)
    have hsegsucc : oy_nd_seg ir jr i (n + 1) =
        oy_nd_cnt ir jr i + oy_nd_seg ir jr (i + 1) n := rfl
    -- facts about the row-i pass
    have e1 : (cfoy_row i jr ar (ir.getD (i + 1) 0 - ir.getD i 0)
        (ir.getD i 0, pp, ijl.set i pp, al)).1 = ir.getD (i + 1) 0 := by
      rw [cfoy_row_fst]; omega
    have e2 : (cfoy_row i jr ar (ir.getD (i + 1) 0 - ir.getD i 0)
        (ir.getD i 0, pp, ijl.set i pp, al)).2.1 = pp + oy_nd_cnt ir jr i :=
      cfoy_row_snd i jr ar _ _ _ _ _
    have e3 : (cfoy_row i jr ar (ir.getD (i + 1) 0 - ir.getD i 0)
        (ir.getD i 0, pp, ijl.set i pp, al)).2.2.1.length = ijl.length := by
      rw [cfoy_row_len_ijl, List.length_set]
    have e4 : (cfoy_row i jr ar (ir.getD (i + 1) 0 - ir.getD i 0)
        (ir.getD i 0, pp, ijl.set i pp, al)).2.2.2.length = al.length :=
      cfoy_row_len_al i jr ar _ _ _ _ _
    -- apply the induction hypothesis to the state after row i
    have IHres := ih (i + 1)
      (cfoy_row i jr ar (ir.getD (i + 1) 0 - ir.getD i 0)
        (ir.getD i 0, pp, ijl.set i pp, al)).1
      (cfoy_row i jr ar (ir.getD (i + 1) 0 - ir.getD i 0)
        (ir.getD i 0, pp, ijl.set i pp, al)).2.1
      (cfoy_row i jr ar (ir.getD (i + 1) 0 - ir.getD i 0)
        (ir.getD i 0, pp, ijl.set i pp, al)).2.2.1
      (cfoy_row i jr ar (ir.getD (i + 1) 0 - ir.getD i 0)
        (ir.getD i 0, pp, ijl.set i pp, al)).2.2.2
      (by omega) e1 (by rw [e2]; omega)
      (fun k hk1 hk2 => h4 k (by omega) (by omega))
      (fun k hk1 hk2 => h5 k (by omega) (by omega))
      (by rw [e2, e3]; rw [hsegsucc] at h6; omega)
      (by rw [e3, e4, h7])
      (by rw [e3]; exact h8)
    obtain ⟨f1, f2, f3, f4, fA, fBij, fBa, fC, fEij, fEa⟩ := IHres
    have hiidx : (i + 1) + n = i + (n + 1) := by omega
    rw [hiidx] at f1
    refine ⟨f1, ?_, ?_, ?_, ?_, ?_, ?_, ?_, ?_, ?_⟩
    · rw [f2, e2, hsegsucc]; omega
    · rw [f3, e3]
    · rw [f4, e4]
    · -- row starts
      intro k d hk1 hk2
      rcases Nat.eq_or_lt_of_le hk1 with hk | hk
    -- k = i
      · subst hk
        have hii : i - i = 0 := by omega
        rw [hii]
        have step1 := fEij i d (Or.inl (by omega)) (Or.inl (by rw [e2]; omega))
        rw [step1]
        have step2 := cfoy_row_ijl_frame i jr ar (ir.getD (i + 1) 0 - ir.getD i 0)
          (ir.getD i 0) pp (ijl.set i pp) al i d (Or.inl (by omega))
        rw [step2, list_getD_set_self _ _ _ _ (by omega)]
        rfl
      · have hk' : k - i = (k - (i + 1)) + 1 := by omega
        rw [hk']
        have hseg2 : oy_nd_seg ir jr i ((k - (i + 1)) + 1) =
            oy_nd_cnt ir jr i + oy_nd_seg ir jr (i + 1) (k - (i + 1)) := rfl
        rw [hseg2]
        have := fA k d (by omega) (by omega)
        rw [this, e2]
        omega
    · -- non-diagonal columns
      intro k u d hk1 hk2 hu
      rcases Nat.eq_or_lt_of_le hk1 with hk | hk
      · subst hk
        have hs0 : oy_nd_seg ir jr i 0 = 0 := rfl
        have hcnt : oy_nd_cnt ir jr i =
            ((List.range' (ir.getD i 0) (ir.getD (i + 1) 0 - ir.getD i 0)).filter
              (fun q => decide (jr.getD q 0 ≠ i))).length := rfl
        have hii : i - i = 0 := by omega
        rw [hii]
        have hfr := fEij (pp + oy_nd_seg ir jr i 0 + u) d
          (Or.inr (by omega)) (Or.inl (by rw [e2]; omega))
        rw [hfr]
        exact cfoy_row_ijl_content i jr ar (ir.getD (i + 1) 0 - ir.getD i 0)
          (ir.getD i 0) pp (ijl.set i pp) al u d
          (by rw [List.length_set]; rw [hsegsucc] at h6; omega) hu
      · have hk' : k - i = (k - (i + 1)) + 1 := by omega
        rw [hk']
        have hseg2 : oy_nd_seg ir jr i ((k - (i + 1)) + 1) =
            oy_nd_cnt ir jr i + oy_nd_seg ir jr (i + 1) (k - (i + 1)) := rfl
        rw [hseg2]
        have harith : pp + (oy_nd_cnt ir jr i + oy_nd_seg ir jr (i + 1) (k - (i + 1))) + u =
            pp + oy_nd_cnt ir jr i + oy_nd_seg ir jr (i + 1) (k - (i + 1)) + u := by omega
        rw [harith, ← e2]
        exact fBij k u d (by omega) (by omega) hu
    · -- non-diagonal values
      intro k u d hk1 hk2 hu
      rcases Nat.eq_or_lt_of_le hk1 with hk | hk
      · subst hk
        have hs0 : oy_nd_seg ir jr i 0 = 0 := rfl
        have hcnt : oy_nd_cnt ir jr i =
            ((List.range' (ir.getD i 0) (ir.getD (i + 1) 0 - ir.getD i 0)).filter
              (fun q => decide (jr.getD q 0 ≠ i))).length := rfl
        have hii : i - i = 0 := by omega
        rw [hii]
        have hfr := fEa (pp + oy_nd_seg ir jr i 0 + u) d
          (Or.inr (by omega)) (Or.inl (by rw [e2]; omega))
        rw [hfr]
        exact cfoy_row_al_content i jr ar (ir.getD (i + 1) 0 - ir.getD i 0)
          (ir.getD i 0) pp (ijl.set i pp) al u d (by omega)
          (by rw [← h7]; rw [hsegsucc] at h6; omega) hu
      · have hk' : k - i = (k - (i + 1)) + 1 := by omega
        rw [hk']
        have hseg2 : oy_nd_seg ir jr i ((k - (i + 1)) + 1) =
            oy_nd_cnt ir jr i + oy_nd_seg ir jr (i + 1) (k - (i + 1)) := rfl
        rw [hseg2]
        have harith : pp + (oy_nd_cnt ir jr i + oy_nd_seg ir jr (i + 1) (k - (i + 1))) + u =
            pp + oy_nd_cnt ir jr i + oy_nd_seg ir jr (i + 1) (k - (i + 1)) + u := by omega
        rw [harith, ← e2]
        exact fBa k u d (by omega) (by omega) hu
    · -- diagonal values
      intro k d hk1 hk2
      rcases Nat.eq_or_lt_of_le hk1 with hk | hk
      · subst hk
        have step1 := fEa i d (Or.inl (by omega)) (Or.inl (by rw [e2]; omega))
        rw [step1]
        exact cfoy_row_al_diag i jr ar (ir.getD (i + 1) 0 - ir.getD i 0)
          (ir.getD i 0) pp (ijl.set i pp) al d (by omega) (by omega)
          (h5 i (le_refl i) (by omega))
      · have := fC k d (by omega) (by omega)
        rw [this]
        have hframe := cfoy_row_al_frame i jr ar (ir.getD (i + 1) 0 - ir.getD i 0)
          (ir.getD i 0) pp (ijl.set i pp) al k d (by omega) (Or.inl (by omega))
        rcases hfind : (oy_row_positions ir k).find? (fun q => decide (jr.getD q 0 = k))
          with - | q
        · exact hframe
        · rfl
    · -- IJA frame
      intro idx d hidx1 hidx2
      have hstep := fEij idx d (by omega)
        (by rw [e2]; rw [hsegsucc] at hidx2; omega)
      rw [hstep]
      have hstep2 := cfoy_row_ijl_frame i jr ar (ir.getD (i + 1) 0 - ir.getD i 0)
        (ir.getD i 0) pp (ijl.set i pp) al idx d
        (by rw [hsegsucc] at hidx2; show _ ∨ pp + oy_nd_cnt ir jr i ≤ idx; omega)
      rw [hstep2]
      exact list_getD_set_ne _ _ _ _ _ (by omega)
    · -- A frame
      intro idx d hidx1 hidx2
      have hstep := fEa idx d (by omega)
        (by rw [e2]; rw [hsegsucc] at hidx2; omega)
      rw [hstep]
      exact cfoy_row_al_frame i jr ar (ir.getD (i + 1) 0 - ir.getD i 0)
        (ir.getD i 0) pp (ijl.set i pp) al idx d (by omega)
        (by rw [hsegsucc] at hidx2; show _ ∨ pp + oy_nd_cnt ir jr i ≤ idx; omega)

/-- Splitting one row off the right end of a non-diagonal segment sum. -/
theorem oy_nd_seg_succ_right (ir jr : List Nat) :
    ∀ m a, oy_nd_seg ir jr a (m + 1) = oy_nd_seg ir jr a m + oy_nd_cnt ir jr (a + m) := by
  intro m
  induction m with
  | zero => intro a; simp [oy_nd_seg]
  | succ n ih =>
    intro a
    show oy_nd_cnt ir jr a + oy_nd_seg ir jr (a + 1) (n + 1) =
      oy_nd_cnt ir jr a + oy_nd_seg ir jr (a + 1) n + oy_nd_cnt ir jr (a + (n + 1))
    rw [ih (a + 1)]
    rw [show a + 1 + n = a + (n + 1) from by omega]
    omega

/-- The segment sums starting at row 0 telescope row by row. -/
theorem oy_nd_seg_zero_succ (ir jr : List Nat) (k : Nat) :
    oy_nd_seg ir jr 0 (k + 1) = oy_nd_seg ir jr 0 k + oy_nd_cnt ir jr k := by
  rw [oy_nd_seg_succ_right, Nat.zero_add]

/-- In a window on which `jr` is strictly increasing, at most one
position can carry any given column value. -/
theorem oy_diag_unique (jr : List Nat) (k a n : Nat)
    (hstrict : ∀ q, q < a + n → ∀ p, p < q → a ≤ p → jr.getD p 0 < jr.getD q 0) :
    ((List.range' a n).filter (fun q => decide (jr.getD q 0 = k))).length ≤ 1 := by
  by_contra hcon
  push_neg at hcon
  have hpw : ((List.range' a n).filter
      (fun q => decide (jr.getD q 0 = k))).Pairwise (· < ·) :=
    List.Pairwise.sublist (List.filter_sublist _) (List.pairwise_lt_range' a n)
  rcases hfl : (List.range' a n).filter (fun q => decide (jr.getD q 0 = k)) with - | ⟨x, tl⟩
  · rw [hfl] at hcon; simp at hcon
  · rcases tl with - | ⟨y, rest⟩
    · rw [hfl] at hcon; simp at hcon
    · rw [hfl] at hpw
      have hxy : x < y := (List.pairwise_cons.mp hpw).1 y (List.mem_cons_self _ _)
      have hx_mem : x ∈ (List.range' a n).filter (fun q => decide (jr.getD q 0 = k)) := by
        rw [hfl]; exact List.mem_cons_self _ _
      have hy_mem : y ∈ (List.range' a n).filter (fun q => decide (jr.getD q 0 = k)) := by
        rw [hfl]; exact List.mem_cons_of_mem _ (List.mem_cons_self _ _)
      have hxp := List.of_mem_filter hx_mem
      have hyp := List.of_mem_filter hy_mem
      simp only [decide_eq_true_eq] at hxp hyp
      have hxr := List.mem_range'_1.mp (List.mem_of_mem_filter hx_mem)
      have hyr := List.mem_range'_1.mp (List.mem_of_mem_filter hy_mem)
      have := hstrict y (by omega) x hxy (by omega)
      omega

/-- A non-diagonal position of row `k` lies in the row window and its
column differs from `k`. -/
theorem oy_nd_pos_mem (ir jr : List Nat) (k u : Nat) (hu : u < oy_nd_cnt ir jr k) :
    ir.getD k 0 ≤ (oy_nd_positions ir jr k).getD u 0 ∧
    (oy_nd_positions ir jr k).getD u 0 < ir.getD (k + 1) 0 ∧
    jr.getD ((oy_nd_positions ir jr k).getD u 0) 0 ≠ k := by
  have hu' : u < (oy_nd_positions ir jr k).length := hu
  have hmem : (oy_nd_positions ir jr k).getD u 0 ∈ oy_nd_positions ir jr k := by
    rw [List.getD_eq_getElem _ _ hu']
    exact List.getElem_mem hu'
  have hpred := List.of_mem_filter hmem
  have hrng := List.mem_range'_1.mp (List.mem_of_mem_filter hmem)
  simp only [decide_eq_true_eq] at hpred
  exact ⟨hrng.1, by omega, hpred⟩

/-- Non-diagonal positions of a row are listed in strictly increasing
order (they are a filter of an increasing range). -/
theorem oy_nd_pos_ascending (ir jr : List Nat) (k u v : Nat)
    (huv : u < v) (hvc : v < oy_nd_cnt ir jr k) :
    (oy_nd_positions ir jr k).getD u 0 < (oy_nd_positions ir jr k).getD v 0 := by
  have hpw : (oy_nd_positions ir jr k).Pairwise (· < ·) :=
    List.Pairwise.sublist (List.filter_sublist _) (List.pairwise_lt_range' _ _)
  have hlen : oy_nd_cnt ir jr k = (oy_nd_positions ir jr k).length := rfl
  have hu' : u < (oy_nd_positions ir jr k).length := by omega
  have hv' : v < (oy_nd_positions ir jr k).length := by omega
  rw [List.getD_eq_getElem _ _ hu', List.getD_eq_getElem _ _ hv']
  exact List.pairwise_iff_getElem.mp hpw u v hu' hv' huv

/-- `oy_dense` when the row scan finds the column. -/
theorem oy_dense_of_find (ir jr : List Nat) (ar : List Int) (r c q : Nat)
    (h : (oy_row_positions ir r).find? (fun p => decide (jr.getD p 0 = c)) = some q) :
    oy_dense ir jr ar r c = ar.getD q 0 := by
  unfold oy_dense; rw [h]

/-- `oy_dense` when the row scan does not find the column. -/
theorem oy_dense_of_none (ir jr : List Nat) (ar : List Int) (r c : Nat)
    (h : (oy_row_positions ir r).find? (fun p => decide (jr.getD p 0 = c)) = none) :
    oy_dense ir jr ar r c = 0 := by
  unfold oy_dense; rw [h]

/-- Full characterization of the storage built by `create_from_old_yale`
from a valid old-Yale triple: array lengths, row pointers, off-diagonal
columns and values, diagonal values and the sentinel zero. -/
theorem create_from_old_yale_spec (dtype shape0 shape1 : Nat) (ir jr : List Nat)
    (ar : List Int) (hv : OldYaleValid shape0 shape1 ir jr ar) :
    (create_from_old_yale dtype shape0 shape1 ir jr ar).ija.length =
      shape0 + oy_nd_seg ir jr 0 shape0 + 1 ∧
    (create_from_old_yale dtype shape0 shape1 ir jr ar).a.length =
      shape0 + oy_nd_seg ir jr 0 shape0 + 1 ∧
    (∀ k, k ≤ shape0 →
      ijaAt (create_from_old_yale dtype shape0 shape1 ir jr ar) k =
        shape0 + 1 + oy_nd_seg ir jr 0 k) ∧
    (∀ k u, k < shape0 → u < oy_nd_cnt ir jr k →
      ijaAt (create_from_old_yale dtype shape0 shape1 ir jr ar)
          (shape0 + 1 + oy_nd_seg ir jr 0 k + u) =
        jr.getD ((oy_nd_positions ir jr k).getD u 0) 0) ∧
    (∀ k u, k < shape0 → u < oy_nd_cnt ir jr k →
      aAt (create_from_old_yale dtype shape0 shape1 ir jr ar)
          (shape0 + 1 + oy_nd_seg ir jr 0 k + u) =
        ar.getD ((oy_nd_positions ir jr k).getD u 0) 0) ∧
    (∀ k, k < shape0 →
      aAt (create_from_old_yale dtype shape0 shape1 ir jr ar) k =
        oy_dense ir jr ar k k) ∧
    aAt (create_from_old_yale dtype shape0 shape1 ir jr ar) shape0 = 0 := by
  obtain ⟨hs0, hs1, hirlen, hir0, hmono, hirend, hjalen, hasc, hcol, hnz⟩ := hv
  have hspec := cfoy_rows_spec ir jr ar shape0 shape0 0 (ir.getD 0 0) (shape0 + 1)
    (List.replicate (shape0 + oy_nd_seg ir jr 0 shape0 + 1) 0)
    (List.replicate (shape0 + oy_nd_seg ir jr 0 shape0 + 1) 0)
    (by omega) rfl (le_refl _)
    (fun k hk1 hk2 => hmono k (by omega))
    (fun k hk1 hk2 => oy_diag_unique jr k (ir.getD k 0) (ir.getD (k + 1) 0 - ir.getD k 0)
      (fun q hq p hpq hap =>
        hasc k (by omega) q (by have := hmono k (by omega); omega) p hpq hap))
    (by rw [List.length_replicate]; omega)
    (by rw [List.length_replicate, List.length_replicate])
    (by rw [List.length_replicate]; omega)
  obtain ⟨f1, f2, f3, f4, fA, fBij, fBa, fC, fEij, fEa⟩ := hspec
  simp only [Nat.sub_zero, Nat.zero_add] at f2 f3 f4 fA fBij fBa fC
  have hstate : cfoy_state shape0 ir jr ar =
      cfoy_rows ir jr ar 0 shape0
        (ir.getD 0 0, shape0 + 1,
          List.replicate (shape0 + oy_nd_seg ir jr 0 shape0 + 1) 0,
          List.replicate (shape0 + oy_nd_seg ir jr 0 shape0 + 1) 0) := rfl
  rw [← hstate] at f2 f3 f4 fA fBij fBa fC
  rw [List.length_replicate] at f3 f4
  have hija : (create_from_old_yale dtype shape0 shape1 ir jr ar).ija =
      (cfoy_state shape0 ir jr ar).2.2.1.set shape0 (cfoy_state shape0 ir jr ar).2.1 := rfl
  have ha : (create_from_old_yale dtype shape0 shape1 ir jr ar).a =
      (cfoy_state shape0 ir jr ar).2.2.2.set shape0 0 := rfl
  refine ⟨?_, ?_, ?_, ?_, ?_, ?_, ?_⟩
  · rw [hija, List.length_set, f3]
  · rw [ha, List.length_set, f4]
  · intro k hk
    show (create_from_old_yale dtype shape0 shape1 ir jr ar).ija.getD k 0 = _
    rw [hija]
    rcases Nat.lt_or_ge k shape0 with hlt | hge
    · rw [list_getD_set_ne _ _ _ _ _ (by omega)]
      exact fA k 0 (Nat.zero_le k) hlt
    · have hk0 : k = shape0 := by omega
      subst hk0
      rw [list_getD_set_self _ _ _ _ (by omega)]
      exact f2
  · intro k u hk hu
    show (create_from_old_yale dtype shape0 shape1 ir jr ar).ija.getD
      (shape0 + 1 + oy_nd_seg ir jr 0 k + u) 0 = _
    rw [hija, list_getD_set_ne _ _ _ _ _ (by omega)]
    exact fBij k u 0 (Nat.zero_le k) hk hu
  · intro k u hk hu
    show (create_from_old_yale dtype shape0 shape1 ir jr ar).a.getD
      (shape0 + 1 + oy_nd_seg ir jr 0 k + u) 0 = _
    rw [ha, list_getD_set_ne _ _ _ _ _ (by omega)]
    exact fBa k u 0 (Nat.zero_le k) hk hu
  · intro k hk
    show (create_from_old_yale dtype shape0 shape1 ir jr ar).a.getD k 0 =
      oy_dense ir jr ar k k
    rw [ha, list_getD_set_ne _ _ _ _ _ (by omega), fC k 0 (Nat.zero_le k) hk]
    rcases hfo : (oy_row_positions ir k).find? (fun q => decide (jr.getD q 0 = k))
      with - | q
    · rw [oy_dense_of_none ir jr ar k k hfo]
      show (List.replicate (shape0 + oy_nd_seg ir jr 0 shape0 + 1) 0).getD k 0 = 0
      rw [List.getD_eq_getElem?_getD, List.getElem?_replicate]
      split_ifs <;> rfl
    · rw [oy_dense_of_find ir jr ar k k q hfo]
  · show (create_from_old_yale dtype shape0 shape1 ir jr ar).a.getD shape0 0 = 0
    rw [ha, list_getD_set_self _ _ _ _ (by omega)]

/-- `create_from_old_yale` on a valid triple yields a well-formed storage. -/
theorem create_from_old_yale_WF (dtype shape0 shape1 : Nat) (ir jr : List Nat)
    (ar : List Int) (hv : OldYaleValid shape0 shape1 ir jr ar) :
    WF (create_from_old_yale dtype shape0 shape1 ir jr ar) := by
  obtain ⟨g1, g2, g3, g4, g5, g6, g7⟩ :=
    create_from_old_yale_spec dtype shape0 shape1 ir jr ar hv
  obtain ⟨hs0, hs1, hirlen, hir0, hmono, hirend, hjalen, hasc, hcol, hnz⟩ := hv
  have hsh : (create_from_old_yale dtype shape0 shape1 ir jr ar).shape0 = shape0 := rfl
  have hsh1 : (create_from_old_yale dtype shape0 shape1 ir jr ar).shape1 = shape1 := rfl
  have hcap : (create_from_old_yale dtype shape0 shape1 ir jr ar).capacity =
      shape0 + oy_nd_seg ir jr 0 shape0 + 1 := rfl
  refine ⟨?_, ?_, ?_, ?_, ?_, ?_, ?_, ?_, ?_, ?_⟩
  · rw [g1, hcap]
  · rw [g2, hcap]
  · rw [hsh]; exact hs0
  · rw [hsh1]; exact hs1
  · rw [hsh, g3 0 (by omega)]
    rfl
  · intro i hi
    rw [hsh] at hi
    rw [g3 i (by omega), g3 (i + 1) (by omega), oy_nd_seg_zero_succ]
    omega
  · show ijaAt (create_from_old_yale dtype shape0 shape1 ir jr ar) shape0 ≤
      (create_from_old_yale dtype shape0 shape1 ir jr ar).capacity
    rw [g3 shape0 (le_refl _), hcap]
    omega
  · exact g7
  · intro i hi q hq p hpq hp
    rw [hsh] at hi
    rw [g3 i (by omega)] at hp
    rw [g3 (i + 1) (by omega), oy_nd_seg_zero_succ] at hq
    obtain ⟨u, hu⟩ : ∃ u, p = shape0 + 1 + oy_nd_seg ir jr 0 i + u :=
      ⟨p - (shape0 + 1 + oy_nd_seg ir jr 0 i), by omega⟩
    obtain ⟨v, hvv⟩ : ∃ v, q = shape0 + 1 + oy_nd_seg ir jr 0 i + v :=
      ⟨q - (shape0 + 1 + oy_nd_seg ir jr 0 i), by omega⟩
    subst hu
    subst hvv
    have hvcnt : v < oy_nd_cnt ir jr i := by omega
    have hucnt : u < oy_nd_cnt ir jr i := by omega
    have huv : u < v := by omega
    rw [g4 i u (by omega) hucnt, g4 i v (by omega) hvcnt]
    have hposlt := oy_nd_pos_ascending ir jr i u v huv hvcnt
    have hmu := oy_nd_pos_mem ir jr i u hucnt
    have hmv := oy_nd_pos_mem ir jr i v hvcnt
    exact hasc i hi ((oy_nd_positions ir jr i).getD v 0) hmv.2.1
      ((oy_nd_positions ir jr i).getD u 0) hposlt hmu.1
  · intro i hi p hp1 hp2
    rw [hsh] at hi
    rw [g3 (i + 1) (by omega), oy_nd_seg_zero_succ] at hp1
    rw [g3 i (by omega)] at hp2
    obtain ⟨u, hu⟩ : ∃ u, p = shape0 + 1 + oy_nd_seg ir jr 0 i + u :=
      ⟨p - (shape0 + 1 + oy_nd_seg ir jr 0 i), by omega⟩
    subst hu
    have hucnt : u < oy_nd_cnt ir jr i := by omega
    rw [g4 i u (by omega) hucnt, hsh1]
    have hmu := oy_nd_pos_mem ir jr i u hucnt
    refine ⟨hmu.2.2, ?_⟩
    exact hcol i hi ((oy_nd_positions ir jr i).getD u 0) hmu.2.1 hmu.1

/-- Claim C5: building a storage from a valid old-Yale compressed-row
triple (non-decreasing row pointers, per-row strictly ascending in-range
columns, no explicitly stored non-diagonal zeros) with
`create_from_old_yale` yields a well-formed storage; `ref` never raises
on it, and reading any in-shape cell back through `ref` reproduces the
dense value the triple specifies (`oy_dense`); in particular a diagonal
cell absent from the triple reads back as zero. -/
theorem claim_c5_old_yale_round_trip (dtype shape0 shape1 : Nat) (ir jr : List Nat)
    (ar : List Int) (hv : OldYaleValid shape0 shape1 ir jr ar) :
    WF (create_from_old_yale dtype shape0 shape1 ir jr ar) ∧
    (∀ r c, ref (create_from_old_yale dtype shape0 shape1 ir jr ar) true r c =
      Except.ok (ref_index (create_from_old_yale dtype shape0 shape1 ir jr ar) r c)) ∧
    (∀ r c, r < shape0 → c < shape1 →
      refValue (create_from_old_yale dtype shape0 shape1 ir jr ar) r c =
        oy_dense ir jr ar r c) ∧
    (∀ r, r < shape0 →
      (∀ p, p ∈ oy_row_positions ir r → jr.getD p 0 ≠ r) →
      refValue (create_from_old_yale dtype shape0 shape1 ir jr ar) r r = 0) := by
  have hwf := create_from_old_yale_WF dtype shape0 shape1 ir jr ar hv
  obtain ⟨g1, g2, g3, g4, g5, g6, g7⟩ :=
    create_from_old_yale_spec dtype shape0 shape1 ir jr ar hv
  obtain ⟨hs0, hs1, hirlen, hir0, hmono, hirend, hjalen, hasc, hcol, hnz⟩ := hv
  refine ⟨hwf, fun r c => rfl, ?_, ?_⟩
  · intro r c hr hc
    by_cases hrc : r = c
    · subst hrc
      unfold refValue
      rw [ref_index_diag]
      exact g6 r hr
    · by_cases hst : StoredAt (create_from_old_yale dtype shape0 shape1 ir jr ar) r c
      · obtain ⟨p, hp1, hp2, hpc⟩ := hst
        unfold refValue
        rw [ref_index_found (create_from_old_yale dtype shape0 shape1 ir jr ar) hwf
          r c p hr hp1 hp2 hpc]
        rw [g3 r (by omega)] at hp1
        rw [g3 (r + 1) (by omega), oy_nd_seg_zero_succ] at hp2
        obtain ⟨u, hu⟩ : ∃ u, p = shape0 + 1 + oy_nd_seg ir jr 0 r + u :=
          ⟨p - (shape0 + 1 + oy_nd_seg ir jr 0 r), by omega⟩
        subst hu
        have hucnt : u < oy_nd_cnt ir jr r := by omega
        rw [g5 r u hr hucnt]
        have hcolu : jr.getD ((oy_nd_positions ir jr r).getD u 0) 0 = c := by
          rw [← g4 r u hr hucnt]; exact hpc
        have hndmem : (oy_nd_positions ir jr r).getD u 0 ∈ oy_nd_positions ir jr r := by
          rw [List.getD_eq_getElem _ _ (hucnt : u < (oy_nd_positions ir jr r).length)]
          exact List.getElem_mem hucnt
        have hmem : (oy_nd_positions ir jr r).getD u 0 ∈ oy_row_positions ir r :=
          List.mem_of_mem_filter hndmem
        have hmu := oy_nd_pos_mem ir jr r u hucnt
        rcases hfo : (oy_row_positions ir r).find? (fun p => decide (jr.getD p 0 = c))
          with - | x
        · exfalso
          have hno := List.find?_eq_none.mp hfo ((oy_nd_positions ir jr r).getD u 0) hmem
          simp only [decide_eq_true_eq] at hno
          exact hno hcolu
        · rw [oy_dense_of_find ir jr ar r c x hfo]
          have hxmem := List.mem_of_find?_eq_some hfo
          have hxpd := List.find?_some hfo
          simp only [decide_eq_true_eq] at hxpd
          have hxrng := List.mem_range'_1.mp hxmem
          have hx_eq : x = (oy_nd_positions ir jr r).getD u 0 := by
            rcases Nat.lt_trichotomy x ((oy_nd_positions ir jr r).getD u 0) with hlt | he | hgt
            · have := hasc r hr ((oy_nd_positions ir jr r).getD u 0) hmu.2.1 x hlt hxrng.1
              omega
            · exact he
            · have := hasc r hr x
                (by have := hmono r hr; omega) ((oy_nd_positions ir jr r).getD u 0) hgt hmu.1
              omega
          rw [hx_eq]
      · unfold refValue
        rw [ref_index_not_found (create_from_old_yale dtype shape0 shape1 ir jr ar)
          r c hrc hst]
        have hzero : aAt (create_from_old_yale dtype shape0 shape1 ir jr ar)
            (create_from_old_yale dtype shape0 shape1 ir jr ar).shape0 = 0 := g7
        rw [hzero]
        have hnone : (oy_row_positions ir r).find? (fun p => decide (jr.getD p 0 = c)) =
            none := by
          rw [List.find?_eq_none]
          intro x hx
          simp only [decide_eq_true_eq]
          intro hxc
          apply hst
          have hxnd : x ∈ oy_nd_positions ir jr r := by
            unfold oy_nd_positions
            rw [List.mem_filter]
            exact ⟨hx, by simp only [decide_eq_true_eq]; omega⟩
          obtain ⟨w, hw, hwx⟩ := List.getElem_of_mem hxnd
          have hwcnt : w < oy_nd_cnt ir jr r := hw
          refine ⟨shape0 + 1 + oy_nd_seg ir jr 0 r + w, ?_, ?_, ?_⟩
          · rw [g3 r (by omega)]; omega
          · rw [g3 (r + 1) (by omega), oy_nd_seg_zero_succ]; omega
          · rw [g4 r w hr hwcnt, List.getD_eq_getElem _ _ hw, hwx]
            exact hxc
        rw [oy_dense_of_none ir jr ar r c hnone]
  · intro r hr habs
    unfold refValue
    rw [ref_index_diag, g6 r hr]
    have hnone : (oy_row_positions ir r).find? (fun p => decide (jr.getD p 0 = r)) =
        none := by
      rw [List.find?_eq_none]
      intro x hx
      simp only [decide_eq_true_eq]
      exact habs x hx
    rw [oy_dense_of_none ir jr ar r r hnone]

/-- Witness for C5: the valid 2×2 old-Yale triple `ir = [0,2,3]`,
`jr = [0,1,0]`, `ar = [3,4,5]` (dense matrix `[[3,4],[5,0]]`). -/
theorem claim_c5_witness :
    OldYaleValid 2 2 [0, 2, 3] [0, 1, 0] [3, 4, 5] ∧
    (WF (create_from_old_yale 0 2 2 [0, 2, 3] [0, 1, 0] [3, 4, 5]) ∧
     (∀ r c, ref (create_from_old_yale 0 2 2 [0, 2, 3] [0, 1, 0] [3, 4, 5]) true r c =
       Except.ok (ref_index (create_from_old_yale 0 2 2 [0, 2, 3] [0, 1, 0] [3, 4, 5]) r c)) ∧
     (∀ r c, r < 2 → c < 2 →
       refValue (create_from_old_yale 0 2 2 [0, 2, 3] [0, 1, 0] [3, 4, 5]) r c =
         oy_dense [0, 2, 3] [0, 1, 0] [3, 4, 5] r c) ∧
     (∀ r, r < 2 →
       (∀ p, p ∈ oy_row_positions [0, 2, 3] r → List.getD [0, 1, 0] p 0 ≠ r) →
       refValue (create_from_old_yale 0 2 2 [0, 2, 3] [0, 1, 0] [3, 4, 5]) r r = 0)) :=
  ⟨by decide,
    claim_c5_old_yale_round_trip 0 2 2 [0, 2, 3] [0, 1, 0] [3, 4, 5] (by decide)⟩

/-! ### Support lemmas for the elementwise multiply claim (C7) -/

/-- Characterization of the multiplicative row merge: the write cursor
advances by at most the number of left entries consumed, and every slot it
writes holds a column present at a position of *both* rows with the
non-zero product of the two stored values; everything outside the written
window is untouched. -/
theorem ew_merge_mul_spec (l r : YaleStorage) (off la_max ra_max : Nat) :
    ∀ fuel la ra da ijl al,
      off + da + (la_max - la) ≤ ijl.length →
      ijl.length = al.length →
      da ≤ (ew_merge_go Ewop.mul l r off la_max ra_max fuel la ra da ijl al).2.2.1 ∧
      (ew_merge_go Ewop.mul l r off la_max ra_max fuel la ra da ijl al).2.2.1 ≤
        da + (la_max - la) ∧
      (ew_merge_go Ewop.mul l r off la_max ra_max fuel la ra da ijl al).2.2.2.1.length =
        ijl.length ∧
      (ew_merge_go Ewop.mul l r off la_max ra_max fuel la ra da ijl al).2.2.2.2.length =
        al.length ∧
      (∀ p, off + da ≤ p →
        p < off + (ew_merge_go Ewop.mul l r off la_max ra_max fuel la ra da ijl al).2.2.1 →
        ∃ pl pr, off + la ≤ pl ∧ pl < off + la_max ∧ off + ra ≤ pr ∧ pr < off + ra_max ∧
          (ew_merge_go Ewop.mul l r off la_max ra_max fuel la ra da ijl al).2.2.2.1.getD
            p 0 = ijaAt l pl ∧
          ijaAt l pl = ijaAt r pr ∧
          (ew_merge_go Ewop.mul l r off la_max ra_max fuel la ra da ijl al).2.2.2.2.getD
            p 0 = aAt l pl * aAt r pr ∧
          (ew_merge_go Ewop.mul l r off la_max ra_max fuel la ra da ijl al).2.2.2.2.getD
            p 0 ≠ 0) ∧
      (∀ idx d,
        (idx < off + da ∨
          off + (ew_merge_go Ewop.mul l r off la_max ra_max fuel la ra da ijl al).2.2.1 ≤
            idx) →
        (ew_merge_go Ewop.mul l r off la_max ra_max fuel la ra da ijl al).2.2.2.1.getD
          idx d = ijl.getD idx d) ∧
      (∀ idx d,
        (idx < off + da ∨
          off + (ew_merge_go Ewop.mul l r off la_max ra_max fuel la ra da ijl al).2.2.1 ≤
            idx) →
        (ew_merge_go Ewop.mul l r off la_max ra_max fuel la ra da ijl al).2.2.2.2.getD
          idx d = al.getD idx d) := by
  intro fuel
  induction fuel with
  | zero =>
    intro la ra da ijl al hB hlen
    refine ⟨le_refl da, Nat.le_add_right _ _, rfl, rfl, ?_, ?_, ?_⟩
    · intro p h1 h2
      have h2' : p < off + da := h2
      exact absurd h2' (by omega)
    · intro idx d _; rfl
    · intro idx d _; rfl
  | succ n ih =>
    intro la ra da ijl al hB hlen
    simp only [ew_merge_go]
    by_cases hc : la < la_max ∧ ra < ra_max
    · rw [if_pos hc]
      obtain ⟨hla, hra⟩ := hc
      by_cases heq : ijaAt l (off + la) = ijaAt r (off + ra)
      · rw [if_pos heq]
        by_cases hnz : ew_op_switch Ewop.mul (aAt l (off + la)) (aAt r (off + ra)) ≠ 0
        · rw [if_pos hnz]
          obtain ⟨m1, m2, m3, m4, mC, mFij, mFa⟩ := ih (la + 1) (ra + 1) (da + 1)
            (ijl.set (off + da) (ijaAt l (off + la)))
            (al.set (off + da) (ew_op_switch Ewop.mul (aAt l (off + la)) (aAt r (off + ra))))
            (by rw [List.length_set]; omega)
            (by rw [List.length_set, List.length_set, hlen])
          refine ⟨by omega, by omega, by rw [m3, List.length_set],
            by rw [m4, List.length_set], ?_, ?_, ?_⟩
          · intro p h1 h2
            rcases Nat.eq_or_lt_of_le h1 with hp | hp
            · refine ⟨off + la, off + ra, by omega, by omega, by omega, by omega,
                ?_, heq, ?_, ?_⟩
              · rw [mFij p 0 (Or.inl (by omega)), ← hp,
                  list_getD_set_self _ _ _ _ (by omega)]
              · rw [mFa p 0 (Or.inl (by omega)), ← hp,
                  list_getD_set_self _ _ _ _ (by omega)]
                rfl
              · rw [mFa p 0 (Or.inl (by omega)), ← hp,
                  list_getD_set_self _ _ _ _ (by omega)]
                exact hnz
            · obtain ⟨pl, pr, c1, c2, c3, c4, c5, c6, c7, c8⟩ := mC p (by omega) h2
              exact ⟨pl, pr, by omega, c2, by omega, c4, c5, c6, c7, c8⟩
          · intro idx d hidx
            rw [mFij idx d (Or.imp (fun h => by omega) (fun h => h) hidx)]
            exact list_getD_set_ne _ _ _ _ _ (by rcases hidx with h | h <;> omega)
          · intro idx d hidx
            rw [mFa idx d (Or.imp (fun h => by omega) (fun h => h) hidx)]
            exact list_getD_set_ne _ _ _ _ _ (by rcases hidx with h | h <;> omega)
        · rw [if_neg hnz]
          obtain ⟨m1, m2, m3, m4, mC, mFij, mFa⟩ := ih (la + 1) (ra + 1) da ijl al
            (by omega) hlen
          refine ⟨m1, by omega, m3, m4, ?_, mFij, mFa⟩
          intro p h1 h2
          obtain ⟨pl, pr, c1, c2, c3, c4, c5, c6, c7, c8⟩ := mC p h1 h2
          exact ⟨pl, pr, by omega, c2, by omega, c4, c5, c6, c7, c8⟩
      · rw [if_neg heq]
        by_cases hlt : ijaAt l (off + la) < ijaAt r (off + ra)
        · rw [if_pos hlt, if_neg (fun hcon => hcon rfl)]
          obtain ⟨m1, m2, m3, m4, mC, mFij, mFa⟩ := ih (la + 1) ra da ijl al
            (by omega) hlen
          refine ⟨m1, by omega, m3, m4, ?_, mFij, mFa⟩
          intro p h1 h2
          obtain ⟨pl, pr, c1, c2, c3, c4, c5, c6, c7, c8⟩ := mC p h1 h2
          exact ⟨pl, pr, by omega, c2, c3, c4, c5, c6, c7, c8⟩
        · rw [if_neg hlt, if_neg (fun hcon => hcon rfl)]
          obtain ⟨m1, m2, m3, m4, mC, mFij, mFa⟩ := ih la (ra + 1) da ijl al hB hlen
          refine ⟨m1, m2, m3, m4, ?_, mFij, mFa⟩
          intro p h1 h2
          obtain ⟨pl, pr, c1, c2, c3, c4, c5, c6, c7, c8⟩ := mC p h1 h2
          exact ⟨pl, pr, c1, c2, by omega, c4, c5, c6, c7, c8⟩
    · rw [if_neg hc]
      refine ⟨le_refl da, Nat.le_add_right _ _, rfl, rfl, ?_, ?_, ?_⟩
      · intro p h1 h2
        have h2' : p < off + da := h2
        exact absurd h2' (by omega)
      · intro idx d _; rfl
      · intro idx d _; rfl

/-- One step of the row loop for the multiplicative op: the remainder
loops are skipped (`op != EW_MUL` fails) and `la`/`ra` snap to the row
maxima. -/
theorem ew_rows_go_mul_step (l r : YaleStorage) (off i rem la ra da : Nat)
    (ijl : List Nat) (al : List Int) :
    ew_rows_go Ewop.mul l r off i (rem + 1) (la, ra, da, ijl, al) =
      ew_rows_go Ewop.mul l r off (i + 1) rem
        (ijaAt l (i + 1) - off, ijaAt r (i + 1) - off,
          (ew_merge_go Ewop.mul l r off (ijaAt l (i + 1) - off) (ijaAt r (i + 1) - off)
            (((ijaAt l (i + 1) - off) - la) + ((ijaAt r (i + 1) - off) - ra))
            la ra da (ijl.set i (da + off)) al).2.2.1,
          (ew_merge_go Ewop.mul l r off (ijaAt l (i + 1) - off) (ijaAt r (i + 1) - off)
            (((ijaAt l (i + 1) - off) - la) + ((ijaAt r (i + 1) - off) - ra))
            la ra da (ijl.set i (da + off)) al).2.2.2.1,
          (ew_merge_go Ewop.mul l r off (ijaAt l (i + 1) - off) (ijaAt r (i + 1) - off)
            (((ijaAt l (i + 1) - off) - la) + ((ijaAt r (i + 1) - off) - ra))
            la ra da (ijl.set i (da + off)) al).2.2.2.2) := rfl

/-- Row pointers are monotone over any span of a well-formed storage. -/
theorem WF.row_ptr_le (s : YaleStorage) (h : WF s) :
    ∀ j i, i ≤ j → j ≤ s.shape0 → ijaAt s i ≤ ijaAt s j := by
  have hmono := h.2.2.2.2.2.1
  intro j
  induction j with
  | zero =>
    intro i hij _
    have h0 : i = 0 := by omega
    subst h0
    exact le_refl _
  | succ m ih =>
    intro i hij hj
    rcases Nat.eq_or_lt_of_le hij with he | hlt
    · subst he; exact le_refl _
    · have h1 := hmono m (by omega)
      have h2 := ih i (by omega) (by omega)
      omega

/-- Characterization of the whole multiplicative row loop: row pointers
are written progressively, every destination slot inside a row's range
holds a column stored at a position of both operands' corresponding rows
with the non-zero product of the stored values, and everything outside
the touched window is unchanged. -/
theorem ew_rows_mul_spec (l r : YaleStorage) (hl : WF l) (hr : WF r)
    (hsh0 : r.shape0 = l.shape0) :
    ∀ rem i la ra da ijl al,
      i + rem ≤ l.shape0 →
      la = ijaAt l i - (l.shape0 + 1) →
      ra = ijaAt r i - (l.shape0 + 1) →
      (l.shape0 + 1) + da + (ijaAt l (i + rem) - ijaAt l i) ≤ ijl.length →
      ijl.length = al.length →
      (ew_rows_go Ewop.mul l r (l.shape0 + 1) i rem (la, ra, da, ijl, al)).1 =
        ijaAt l (i + rem) - (l.shape0 + 1) ∧
      (ew_rows_go Ewop.mul l r (l.shape0 + 1) i rem (la, ra, da, ijl, al)).2.1 =
        ijaAt r (i + rem) - (l.shape0 + 1) ∧
      da ≤ (ew_rows_go Ewop.mul l r (l.shape0 + 1) i rem (la, ra, da, ijl, al)).2.2.1 ∧
      (ew_rows_go Ewop.mul l r (l.shape0 + 1) i rem (la, ra, da, ijl, al)).2.2.1 +
        ijaAt l i ≤ da + ijaAt l (i + rem) ∧
      (ew_rows_go Ewop.mul l r (l.shape0 + 1) i rem (la, ra, da, ijl, al)).2.2.2.1.length =
        ijl.length ∧
      (ew_rows_go Ewop.mul l r (l.shape0 + 1) i rem (la, ra, da, ijl, al)).2.2.2.2.length =
        al.length ∧
      (0 < rem →
        (ew_rows_go Ewop.mul l r (l.shape0 + 1) i rem (la, ra, da, ijl, al)).2.2.2.1.getD
          i 0 = da + (l.shape0 + 1)) ∧
      (∀ k, i ≤ k → k < i + rem →
        da + (l.shape0 + 1) ≤
          (ew_rows_go Ewop.mul l r (l.shape0 + 1) i rem (la, ra, da, ijl, al)).2.2.2.1.getD
            k 0 ∧
        (ew_rows_go Ewop.mul l r (l.shape0 + 1) i rem (la, ra, da, ijl, al)).2.2.2.1.getD
            k 0 ≤
          (if k + 1 < i + rem then
            (ew_rows_go Ewop.mul l r (l.shape0 + 1) i rem (la, ra, da, ijl, al)).2.2.2.1.getD
              (k + 1) 0
          else
            (ew_rows_go Ewop.mul l r (l.shape0 + 1) i rem (la, ra, da, ijl, al)).2.2.1 +
              (l.shape0 + 1))) ∧
      (∀ k, i ≤ k → k < i + rem →
        (ew_rows_go Ewop.mul l r (l.shape0 + 1) i rem (la, ra, da, ijl, al)).2.2.2.1.getD
            k 0 ≤
          (ew_rows_go Ewop.mul l r (l.shape0 + 1) i rem (la, ra, da, ijl, al)).2.2.1 +
            (l.shape0 + 1)) ∧
      (∀ k, i ≤ k → k < i + rem → ∀ p,
        (ew_rows_go Ewop.mul l r (l.shape0 + 1) i rem (la, ra, da, ijl, al)).2.2.2.1.getD
          k 0 ≤ p →
        p < (if k + 1 < i + rem then
            (ew_rows_go Ewop.mul l r (l.shape0 + 1) i rem (la, ra, da, ijl, al)).2.2.2.1.getD
              (k + 1) 0
          else
            (ew_rows_go Ewop.mul l r (l.shape0 + 1) i rem (la, ra, da, ijl, al)).2.2.1 +
              (l.shape0 + 1)) →
        ∃ pl pr, ijaAt l k ≤ pl ∧ pl < ijaAt l (k + 1) ∧
          ijaAt r k ≤ pr ∧ pr < ijaAt r (k + 1) ∧
          (ew_rows_go Ewop.mul l r (l.shape0 + 1) i rem (la, ra, da, ijl, al)).2.2.2.1.getD
            p 0 = ijaAt l pl ∧
          ijaAt l pl = ijaAt r pr ∧
          (ew_rows_go Ewop.mul l r (l.shape0 + 1) i rem (la, ra, da, ijl, al)).2.2.2.2.getD
            p 0 = aAt l pl * aAt r pr ∧
          (ew_rows_go Ewop.mul l r (l.shape0 + 1) i rem (la, ra, da, ijl, al)).2.2.2.2.getD
            p 0 ≠ 0) ∧
      (∀ idx d, (idx < i ∨ i + rem ≤ idx) →
        (idx < da + (l.shape0 + 1) ∨
          (ew_rows_go Ewop.mul l r (l.shape0 + 1) i rem (la, ra, da, ijl, al)).2.2.1 +
            (l.shape0 + 1) ≤ idx) →
        (ew_rows_go Ewop.mul l r (l.shape0 + 1) i rem (la, ra, da, ijl, al)).2.2.2.1.getD
          idx d = ijl.getD idx d) ∧
      (∀ idx d, (idx < i ∨ i + rem ≤ idx) →
        (idx < da + (l.shape0 + 1) ∨
          (ew_rows_go Ewop.mul l r (l.shape0 + 1) i rem (la, ra, da, ijl, al)).2.2.1 +
            (l.shape0 + 1) ≤ idx) →
        (ew_rows_go Ewop.mul l r (l.shape0 + 1) i rem (la, ra, da, ijl, al)).2.2.2.2.getD
          idx d = al.getD idx d) := by
  intro rem
  induction rem with
  | zero =>
    intro i la ra da ijl al hrem hla hra hBij hlen
    subst hla
    subst hra
    simp only [Nat.add_zero]
    refine ⟨rfl, rfl, le_refl _, le_refl _, rfl, rfl, ?_, ?_, ?_, ?_, ?_, ?_⟩
    · intro hcon; exact absurd hcon (by omega)
    · intro k hk1 hk2; exact absurd hk2 (by omega)
    · intro k hk1 hk2; exact absurd hk2 (by omega)
    · intro k hk1 hk2; exact absurd hk2 (by omega)
    · intro idx d _ _; rfl
    · intro idx d _ _; rfl
  | succ n ih =>
    intro i la ra da ijl al hrem hla hra hBij hlen
    subst hla
    subst hra
    rw [ew_rows_go_mul_step]
    have hoff_l_i := WF.row_ptr_lower l hl i (by omega)
    have hoff_l_i1 := WF.row_ptr_lower l hl (i + 1) (by omega)
    have hoff_r_i := WF.row_ptr_lower r hr i (by omega)
    have hoff_r_i1 := WF.row_ptr_lower r hr (i + 1) (by omega)
    have hchain_l := WF.row_ptr_le l hl (i + (n + 1)) (i + 1) (by omega) (by omega)
    have hmono_l := hl.2.2.2.2.2.1 i (by omega)
    have hmono_r := hr.2.2.2.2.2.1 i (by omega)
    obtain ⟨m1, m2, m3, m4, mC, mFij, mFa⟩ := ew_merge_mul_spec l r (l.shape0 + 1)
      (ijaAt l (i + 1) - (l.shape0 + 1)) (ijaAt r (i + 1) - (l.shape0 + 1))
      (((ijaAt l (i + 1) - (l.shape0 + 1)) - (ijaAt l i - (l.shape0 + 1))) +
        ((ijaAt r (i + 1) - (l.shape0 + 1)) - (ijaAt r i - (l.shape0 + 1))))
      (ijaAt l i - (l.shape0 + 1)) (ijaAt r i - (l.shape0 + 1)) da
      (ijl.set i (da + (l.shape0 + 1))) al
      (by rw [List.length_set]; omega)
      (by rw [List.length_set, hlen])
    obtain ⟨n1, n2, n3, n4, n5, n6, n7, n8, n8b, n9, n10, n11⟩ := ih (i + 1)
      (ijaAt l (i + 1) - (l.shape0 + 1)) (ijaAt r (i + 1) - (l.shape0 + 1))
      (ew_merge_go Ewop.mul l r (l.shape0 + 1)
        (ijaAt l (i + 1) - (l.shape0 + 1)) (ijaAt r (i + 1) - (l.shape0 + 1))
        (((ijaAt l (i + 1) - (l.shape0 + 1)) - (ijaAt l i - (l.shape0 + 1))) +
          ((ijaAt r (i + 1) - (l.shape0 + 1)) - (ijaAt r i - (l.shape0 + 1))))
        (ijaAt l i - (l.shape0 + 1)) (ijaAt r i - (l.shape0 + 1)) da
        (ijl.set i (da + (l.shape0 + 1))) al).2.2.1
      (ew_merge_go Ewop.mul l r (l.shape0 + 1)
        (ijaAt l (i + 1) - (l.shape0 + 1)) (ijaAt r (i + 1) - (l.shape0 + 1))
        (((ijaAt l (i + 1) - (l.shape0 + 1)) - (ijaAt l i - (l.shape0 + 1))) +
          ((ijaAt r (i + 1) - (l.shape0 + 1)) - (ijaAt r i - (l.shape0 + 1))))
        (ijaAt l i - (l.shape0 + 1)) (ijaAt r i - (l.shape0 + 1)) da
        (ijl.set i (da + (l.shape0 + 1))) al).2.2.2.1
      (ew_merge_go Ewop.mul l r (l.shape0 + 1)
        (ijaAt l (i + 1) - (l.shape0 + 1)) (ijaAt r (i + 1) - (l.shape0 + 1))
        (((ijaAt l (i + 1) - (l.shape0 + 1)) - (ijaAt l i - (l.shape0 + 1))) +
          ((ijaAt r (i + 1) - (l.shape0 + 1)) - (ijaAt r i - (l.shape0 + 1))))
        (ijaAt l i - (l.shape0 + 1)) (ijaAt r i - (l.shape0 + 1)) da
        (ijl.set i (da + (l.shape0 + 1))) al).2.2.2.2
      (by omega) rfl rfl
      (by rw [m3, List.length_set, show i + 1 + n = i + (n + 1) from by omega]; omega)
      (by rw [m3, m4, List.length_set, hlen])
    rw [show i + 1 + n = i + (n + 1) from by omega] at n1 n2 n4 n8 n8b n9 n10 n11
    have hilen : i < ijl.length := by omega
    have hptr_i : (ew_rows_go Ewop.mul l r (l.shape0 + 1) (i + 1) n
        (ijaAt l (i + 1) - (l.shape0 + 1), ijaAt r (i + 1) - (l.shape0 + 1),
          (ew_merge_go Ewop.mul l r (l.shape0 + 1)
            (ijaAt l (i + 1) - (l.shape0 + 1)) (ijaAt r (i + 1) - (l.shape0 + 1))
            (((ijaAt l (i + 1) - (l.shape0 + 1)) - (ijaAt l i - (l.shape0 + 1))) +
              ((ijaAt r (i + 1) - (l.shape0 + 1)) - (ijaAt r i - (l.shape0 + 1))))
            (ijaAt l i - (l.shape0 + 1)) (ijaAt r i - (l.shape0 + 1)) da
            (ijl.set i (da + (l.shape0 + 1))) al).2.2.1,
          (ew_merge_go Ewop.mul l r (l.shape0 + 1)
            (ijaAt l (i + 1) - (l.shape0 + 1)) (ijaAt r (i + 1) - (l.shape0 + 1))
            (((ijaAt l (i + 1) - (l.shape0 + 1)) - (ijaAt l i - (l.shape0 + 1))) +
              ((ijaAt r (i + 1) - (l.shape0 + 1)) - (ijaAt r i - (l.shape0 + 1))))
            (ijaAt l i - (l.shape0 + 1)) (ijaAt r i - (l.shape0 + 1)) da
            (ijl.set i (da + (l.shape0 + 1))) al).2.2.2.1,
          (ew_merge_go Ewop.mul l r (l.shape0 + 1)
            (ijaAt l (i + 1) - (l.shape0 + 1)) (ijaAt r (i + 1) - (l.shape0 + 1))
            (((ijaAt l (i + 1) - (l.shape0 + 1)) - (ijaAt l i - (l.shape0 + 1))) +
              ((ijaAt r (i + 1) - (l.shape0 + 1)) - (ijaAt r i - (l.shape0 + 1))))
            (ijaAt l i - (l.shape0 + 1)) (ijaAt r i - (l.shape0 + 1)) da
            (ijl.set i (da + (l.shape0 + 1))) al).2.2.2.2)).2.2.2.1.getD i 0 =
        da + (l.shape0 + 1) := by
      rw [n10 i 0 (Or.inl (by omega)) (Or.inl (by omega)),
        mFij i 0 (Or.inl (by omega)),
        list_getD_set_self _ _ _ _ hilen]
    refine ⟨?_, ?_, ?_, ?_, ?_, ?_, ?_, ?_, ?_, ?_, ?_, ?_⟩
    · exact n1
    · exact n2
    · omega
    · omega
    · rw [n5, m3, List.length_set]
    · rw [n6, m4]
    · intro _
      exact hptr_i
    · intro k hk1 hk2
      rcases Nat.eq_or_lt_of_le hk1 with hk | hk
      · subst hk
        refine ⟨by omega, ?_⟩
        by_cases hcond : i + 1 < i + (n + 1)
        · rw [if_pos hcond]
          have := n7 (by omega)
          omega
        · rw [if_neg hcond]
          omega
      · have h8 := n8 k (by omega) (by omega)
        refine ⟨by omega, h8.2⟩
    · intro k hk1 hk2
      rcases Nat.eq_or_lt_of_le hk1 with hk | hk
      · subst hk
        omega
      · exact n8b k (by omega) (by omega)
    · intro k hk1 hk2 p hp1 hp2
      rcases Nat.eq_or_lt_of_le hk1 with hk | hk
      · subst hk
        rw [hptr_i] at hp1
        have hp2' : p < (l.shape0 + 1) +
            (ew_merge_go Ewop.mul l r (l.shape0 + 1)
              (ijaAt l (i + 1) - (l.shape0 + 1)) (ijaAt r (i + 1) - (l.shape0 + 1))
              (((ijaAt l (i + 1) - (l.shape0 + 1)) - (ijaAt l i - (l.shape0 + 1))) +
                ((ijaAt r (i + 1) - (l.shape0 + 1)) - (ijaAt r i - (l.shape0 + 1))))
              (ijaAt l i - (l.shape0 + 1)) (ijaAt r i - (l.shape0 + 1)) da
              (ijl.set i (da + (l.shape0 + 1))) al).2.2.1 := by
          by_cases hcond : i + 1 < i + (n + 1)
          · rw [if_pos hcond] at hp2
            have := n7 (by omega)
            omega
          · rw [if_neg hcond] at hp2
            have hn0 : n = 0 := by omega
            subst hn0
            exact lt_of_lt_of_le hp2 (Nat.le_of_eq (Nat.add_comm _ _))
        obtain ⟨pl, pr, c1, c2, c3, c4, c5, c6, c7, c8⟩ := mC p (by omega) hp2'
        refine ⟨pl, pr, by omega, by omega, by omega, by omega, ?_, c6, ?_, ?_⟩
        · rw [n10 p 0 (Or.inr (by omega)) (Or.inl (by omega))]
          exact c5
        · rw [n11 p 0 (Or.inr (by omega)) (Or.inl (by omega))]
          exact c7
        · rw [n11 p 0 (Or.inr (by omega)) (Or.inl (by omega))]
          exact c8
      · exact n9 k (by omega) (by omega) p hp1 hp2
    · intro idx d hidx1 hidx2
      rw [n10 idx d (Or.imp (fun h => by omega) (fun h => h) hidx1)
          (Or.imp (fun h => by omega) (fun h => by omega) hidx2),
        mFij idx d (Or.imp (fun h => by omega) (fun h => by omega) hidx2)]
      exact list_getD_set_ne _ _ _ _ _ (by rcases hidx1 with h | h <;> omega)
    · intro idx d hidx1 hidx2
      rw [n11 idx d (Or.imp (fun h => by omega) (fun h => h) hidx1)
          (Or.imp (fun h => by omega) (fun h => by omega) hidx2)]
      exact mFa idx d (Or.imp (fun h => by omega) (fun h => by omega) hidx2)

/-- Reading inside the kept prefix of a `take` (the `realloc` shrink). -/
theorem list_getD_take (l : List α) (n i : Nat) (d : α) (h : i < n) :
    (l.take n).getD i d = l.getD i d := by
  rw [List.getD_eq_getElem?_getD, List.getD_eq_getElem?_getD, List.getElem?_take,
    if_pos h]

/-- The diagonal pass leaves the array length unchanged. -/
theorem ew_diag_loop_length (op : Ewop) (l r : YaleStorage) :
    ∀ rem i da, (ew_diag_loop op l r i rem da).length = da.length := by
  intro rem
  induction rem with
  | zero => intro i da; rfl
  | succ n ih =>
    intro i da
    show (ew_diag_loop op l r (i + 1) n (da.set i (ew_op_switch op (aAt l i) (aAt r i)))).length =
      da.length
    rw [ih, List.length_set]

/-- The create clamp never returns fewer than `shape0 + 1` slots. -/
theorem yale_create_capacity_lower (shape0 shape1 init : Nat) (h1 : 1 ≤ shape1) :
    shape0 + 1 ≤ yale_create_capacity shape0 shape1 init := by
  unfold yale_create_capacity NM_YALE_MINIMUM max_size
  have := Nat.le_mul_of_pos_right shape0 h1
  split_ifs <;> omega

/-- Claim C7: for the multiplicative elementwise operation, every
off-diagonal entry of a row of `combine(multiply, l, r)` sits at a column
stored in the corresponding row of *both* operands (no one-sided column is
ever emitted) and its value is the non-zero product of the two stored
values (a common column whose product is zero is skipped); consequently a
row with no common stored off-diagonal columns has an empty off-diagonal
range.  The capacity hypothesis states that the clamped destination
capacity covers the left operand's used size; it excludes executions
whose sequential destination writes would overflow the C allocation
(undefined behaviour). -/
theorem claim_c7_ew_mul_skip_rule (l r : YaleStorage) (dtype : Nat)
    (hl : WF l) (hr : WF r) (hsh0 : r.shape0 = l.shape0)
    (hcap : get_size l ≤ yale_create_capacity l.shape0 l.shape1
      (min (l.ndnz + r.ndnz + l.shape0) (l.shape0 * l.shape1))) :
    (∀ i p, i < l.shape0 →
      ijaAt (ew_op Ewop.mul l r dtype) i ≤ p →
      p < ijaAt (ew_op Ewop.mul l r dtype) (i + 1) →
      ∃ pl pr, ijaAt l i ≤ pl ∧ pl < ijaAt l (i + 1) ∧
        ijaAt r i ≤ pr ∧ pr < ijaAt r (i + 1) ∧
        ijaAt (ew_op Ewop.mul l r dtype) p = ijaAt l pl ∧
        ijaAt l pl = ijaAt r pr ∧
        aAt (ew_op Ewop.mul l r dtype) p = aAt l pl * aAt r pr ∧
        aAt (ew_op Ewop.mul l r dtype) p ≠ 0) ∧
    (∀ i, i < l.shape0 → (∀ c, ¬ (StoredAt l i c ∧ StoredAt r i c)) →
      ijaAt (ew_op Ewop.mul l r dtype) i = ijaAt (ew_op Ewop.mul l r dtype) (i + 1)) := by
  have hs1 : 1 ≤ l.shape1 := hl.2.2.2.1
  have hlow := yale_create_capacity_lower l.shape0 l.shape1
    (min (l.ndnz + r.ndnz + l.shape0) (l.shape0 * l.shape1)) hs1
  have hija0 : ijaAt l 0 = l.shape0 + 1 := hl.2.2.2.2.1
  have hija0r : ijaAt r 0 = r.shape0 + 1 := hr.2.2.2.2.1
  have hsz : get_size l = ijaAt l l.shape0 := rfl
  obtain ⟨r1, r2, r3, r4, r5, r6, r7, r8, r8b, r9, r10, r11⟩ :=
    ew_rows_mul_spec l r hl hr hsh0 l.shape0 0 0 0 0
      (List.replicate (yale_create_capacity l.shape0 l.shape1
        (min (l.ndnz + r.ndnz + l.shape0) (l.shape0 * l.shape1))) 0)
      ((ew_diag_loop Ewop.mul l r 0 l.shape0
        (List.replicate (yale_create_capacity l.shape0 l.shape1
          (min (l.ndnz + r.ndnz + l.shape0) (l.shape0 * l.shape1))) 0)).set l.shape0 0)
      (by omega) (by omega) (by omega)
      (by rw [List.length_replicate]; simp only [Nat.zero_add]; omega)
      (by rw [List.length_replicate, List.length_set, ew_diag_loop_length,
        List.length_replicate])
  have hstate : ew_state Ewop.mul l r =
      ew_rows_go Ewop.mul l r (l.shape0 + 1) 0 l.shape0
        (0, 0, 0,
          List.replicate (yale_create_capacity l.shape0 l.shape1
            (min (l.ndnz + r.ndnz + l.shape0) (l.shape0 * l.shape1))) 0,
          (ew_diag_loop Ewop.mul l r 0 l.shape0
            (List.replicate (yale_create_capacity l.shape0 l.shape1
              (min (l.ndnz + r.ndnz + l.shape0) (l.shape0 * l.shape1))) 0)).set
            l.shape0 0) := rfl
  rw [← hstate] at r3 r5 r7 r8 r8b r9 r10 r11
  simp only [Nat.zero_add] at r7 r8 r8b r9
  rw [List.length_replicate] at r5
  have hSija : (ew_op Ewop.mul l r dtype).ija =
      ((ew_state Ewop.mul l r).2.2.2.1.set l.shape0
        ((ew_state Ewop.mul l r).2.2.1 + (l.shape0 + 1))).take
        (l.shape0 + (ew_state Ewop.mul l r).2.2.1 + 1) := rfl
  have hSa : (ew_op Ewop.mul l r dtype).a =
      (ew_state Ewop.mul l r).2.2.2.2.take
        (l.shape0 + (ew_state Ewop.mul l r).2.2.1 + 1) := rfl
  have hlslen : l.shape0 < (ew_state Ewop.mul l r).2.2.2.1.length := by
    rw [r5]; omega
  have hptr : ∀ k, k < l.shape0 →
      ijaAt (ew_op Ewop.mul l r dtype) k =
        (ew_state Ewop.mul l r).2.2.2.1.getD k 0 := by
    intro k hk
    show (ew_op Ewop.mul l r dtype).ija.getD k 0 = _
    rw [hSija, list_getD_take _ _ _ _ (by omega), list_getD_set_ne _ _ _ _ _ (by omega)]
  have hptr_top : ijaAt (ew_op Ewop.mul l r dtype) l.shape0 =
      (ew_state Ewop.mul l r).2.2.1 + (l.shape0 + 1) := by
    show (ew_op Ewop.mul l r dtype).ija.getD l.shape0 0 = _
    rw [hSija, list_getD_take _ _ _ _ (by omega), list_getD_set_self _ _ _ _ hlslen]
  have hentry_ij : ∀ p, l.shape0 + 1 ≤ p →
      p < (ew_state Ewop.mul l r).2.2.1 + (l.shape0 + 1) →
      ijaAt (ew_op Ewop.mul l r dtype) p =
        (ew_state Ewop.mul l r).2.2.2.1.getD p 0 := by
    intro p hp1 hp2
    show (ew_op Ewop.mul l r dtype).ija.getD p 0 = _
    rw [hSija, list_getD_take _ _ _ _ (by omega), list_getD_set_ne _ _ _ _ _ (by omega)]
  have hentry_a : ∀ p, p < (ew_state Ewop.mul l r).2.2.1 + (l.shape0 + 1) →
      aAt (ew_op Ewop.mul l r dtype) p =
        (ew_state Ewop.mul l r).2.2.2.2.getD p 0 := by
    intro p hp2
    show (ew_op Ewop.mul l r dtype).a.getD p 0 = _
    rw [hSa, list_getD_take _ _ _ _ (by omega)]
  refine ⟨?_, ?_⟩
  · intro i p hi hp1 hp2
    rw [hptr i hi] at hp1
    have hp2' : p < (if i + 1 < l.shape0 then
        (ew_state Ewop.mul l r).2.2.2.1.getD (i + 1) 0
      else (ew_state Ewop.mul l r).2.2.1 + (l.shape0 + 1)) := by
      by_cases hcond : i + 1 < l.shape0
      · rw [if_pos hcond]
        rw [hptr (i + 1) hcond] at hp2
        exact hp2
      · rw [if_neg hcond]
        have hieq : i + 1 = l.shape0 := by omega
        rw [hieq, hptr_top] at hp2
        exact hp2
    have hplow : l.shape0 + 1 ≤ p := by
      have := (r8 i (Nat.zero_le i) hi).1
      omega
    have hpup : p < (ew_state Ewop.mul l r).2.2.1 + (l.shape0 + 1) := by
      by_cases hcond : i + 1 < l.shape0
      · rw [if_pos hcond] at hp2'
        have := r8b (i + 1) (Nat.zero_le _) hcond
        omega
      · rw [if_neg hcond] at hp2'
        exact hp2'
    obtain ⟨pl, pr, c1, c2, c3, c4, c5, c6, c7, c8⟩ :=
      r9 i (Nat.zero_le i) hi p hp1 hp2'
    refine ⟨pl, pr, c1, c2, c3, c4, ?_, c6, ?_, ?_⟩
    · rw [hentry_ij p hplow hpup]
      exact c5
    · rw [hentry_a p hpup]
      exact c7
    · rw [hentry_a p hpup]
      exact c8
  · intro i hi hnc
    have h8 := r8 i (Nat.zero_le i) hi
    have hne : ¬ ((ew_state Ewop.mul l r).2.2.2.1.getD i 0 <
        (if i + 1 < l.shape0 then (ew_state Ewop.mul l r).2.2.2.1.getD (i + 1) 0
         else (ew_state Ewop.mul l r).2.2.1 + (l.shape0 + 1))) := by
      intro hlt
      obtain ⟨pl, pr, c1, c2, c3, c4, c5, c6, c7, c8⟩ :=
        r9 i (Nat.zero_le i) hi _ (le_refl _) hlt
      exact hnc (ijaAt l pl) ⟨⟨pl, c1, c2, rfl⟩, ⟨pr, c3, c4, c6.symm⟩⟩
    have h82 := h8.2
    by_cases hcond : i + 1 < l.shape0
    · rw [hptr i hi, hptr (i + 1) hcond]
      rw [if_pos hcond] at hne h82
      omega
    · have hieq : i + 1 = l.shape0 := by omega
      rw [hptr i hi, hieq, hptr_top]
      rw [if_neg hcond] at hne h82
      omega

/-- Witness for C7 at the concrete well-formed pair
`yale_c1_left = [[0,5,9],[0,0,0]]`, `yale_c1_right = [[0,5,0],[0,0,0]]`. -/
theorem claim_c7_witness :
    WF yale_c1_left ∧ WF yale_c1_right ∧
    yale_c1_right.shape0 = yale_c1_left.shape0 ∧
    get_size yale_c1_left ≤ yale_create_capacity yale_c1_left.shape0 yale_c1_left.shape1
      (min (yale_c1_left.ndnz + yale_c1_right.ndnz + yale_c1_left.shape0)
        (yale_c1_left.shape0 * yale_c1_left.shape1)) ∧
    ((∀ i p, i < yale_c1_left.shape0 →
      ijaAt (ew_op Ewop.mul yale_c1_left yale_c1_right 0) i ≤ p →
      p < ijaAt (ew_op Ewop.mul yale_c1_left yale_c1_right 0) (i + 1) →
      ∃ pl pr, ijaAt yale_c1_left i ≤ pl ∧ pl < ijaAt yale_c1_left (i + 1) ∧
        ijaAt yale_c1_right i ≤ pr ∧ pr < ijaAt yale_c1_right (i + 1) ∧
        ijaAt (ew_op Ewop.mul yale_c1_left yale_c1_right 0) p = ijaAt yale_c1_left pl ∧
        ijaAt yale_c1_left pl = ijaAt yale_c1_right pr ∧
        aAt (ew_op Ewop.mul yale_c1_left yale_c1_right 0) p =
          aAt yale_c1_left pl * aAt yale_c1_right pr ∧
        aAt (ew_op Ewop.mul yale_c1_left yale_c1_right 0) p ≠ 0) ∧
    (∀ i, i < yale_c1_left.shape0 →
      (∀ c, ¬ (StoredAt yale_c1_left i c ∧ StoredAt yale_c1_right i c)) →
      ijaAt (ew_op Ewop.mul yale_c1_left yale_c1_right 0) i =
        ijaAt (ew_op Ewop.mul yale_c1_left yale_c1_right 0) (i + 1))) :=
  ⟨by decide, by decide, by decide, by decide,
    claim_c7_ew_mul_skip_rule yale_c1_left yale_c1_right 0 (by decide) (by decide)
      (by decide) (by decide)⟩

/-! ### Support lemmas for the replacement/copy claims -/

theorem copy_loop_length (f : Nat → α) (cnt : Nat) :
    ∀ lo shift (dst : List α), (copy_loop f lo cnt shift dst).length = dst.length := by
  induction cnt with
  | zero => intro lo shift dst; rfl
  | succ n ih =>
    intro lo shift dst
    simp only [copy_loop]
    rw [ih, List.length_set]

theorem copy_loop_getD_lt (f : Nat → α) (cnt : Nat) :
    ∀ lo shift (dst : List α) idx d, idx < lo + shift →
      (copy_loop f lo cnt shift dst).getD idx d = dst.getD idx d := by
  induction cnt with
  | zero => intro lo shift dst idx d _; rfl
  | succ n ih =>
    intro lo shift dst idx d hidx
    simp only [copy_loop]
    rw [ih (lo + 1) shift _ idx d (by omega), list_getD_set_ne _ _ _ _ _ (by omega)]

theorem copy_loop_getD_ge (f : Nat → α) (cnt : Nat) :
    ∀ lo shift (dst : List α) idx d, lo + cnt + shift ≤ idx →
      (copy_loop f lo cnt shift dst).getD idx d = dst.getD idx d := by
  induction cnt with
  | zero => intro lo shift dst idx d _; rfl
  | succ n ih =>
    intro lo shift dst idx d hidx
    simp only [copy_loop]
    rw [ih (lo + 1) shift _ idx d (by omega), list_getD_set_ne _ _ _ _ _ (by omega)]

theorem copy_loop_getD_mem (f : Nat → α) (cnt : Nat) :
    ∀ lo shift (dst : List α) q d, lo ≤ q → q < lo + cnt → q + shift < dst.length →
      (copy_loop f lo cnt shift dst).getD (q + shift) d = f q := by
  induction cnt with
  | zero => intro lo shift dst q d h1 h2 _; omega
  | succ n ih =>
    intro lo shift dst q d h1 h2 h3
    simp only [copy_loop]
    by_cases hq : q = lo
    · subst hq
      rw [copy_loop_getD_lt f n (q + 1) shift _ (q + shift) d (by omega)]
      exact list_getD_set_self _ _ _ _ h3
    · exact ih (lo + 1) shift _ q d (by omega) (by omega) (by simpa using h3)

/-- Found results of `insert_search` point inside the searched interval
at a slot holding the key. -/
theorem insert_search_go_found (s : YaleStorageM) (key : Nat) :
    ∀ fuel left right p, insert_search_go s key fuel left right = (p, true) →
      left ≤ p ∧ p ≤ right ∧ ijaRead s p = key := by
  intro fuel
  induction fuel with
  | zero => intro left right p h; simp [insert_search_go] at h
  | succ n ih =>
    intro left right p h
    simp only [insert_search_go] at h
    by_cases hlr : left > right
    · rw [if_pos hlr] at h; simp at h
    · rw [if_neg hlr] at h
      have hle : left ≤ right := by omega
      generalize hmid : (left + right) / 2 = mid at h
      have hge : left ≤ mid := by omega
      have hmle : mid ≤ right := by omega
      by_cases h1 : ijaRead s mid = key
      · rw [if_pos h1] at h
        obtain ⟨rfl, -⟩ := Prod.mk.injEq .. ▸ h
        exact ⟨hge, hmle, h1⟩
      · rw [if_neg h1] at h
        by_cases h2 : ijaRead s mid > key
        · rw [if_pos h2] at h
          obtain ⟨g1, g2, g3⟩ := ih left (mid - 1) p h
          exact ⟨g1, by omega, g3⟩
        · rw [if_neg h2] at h
          obtain ⟨g1, g2, g3⟩ := ih (mid + 1) right p h
          exact ⟨by omega, g2, g3⟩

/-- `vector_insert` only ever reports tag `'i'`. -/
theorem vector_insert_tag (s : YaleStorageM) (pos : Nat) (j : List Nat) (vals : List Int)
    (n : Nat) (struct_only : Bool) (t : YaleStorageM) (ch : Char)
    (h : vector_insert s pos j vals n struct_only = .ok (t, ch)) : ch = 'i' := by
  unfold vector_insert at h
  split at h
  · simp at h
  · rcases hst : vector_insert_shift s pos n struct_only with e | s1
    · rw [hst] at h; simp at h
    · rw [hst] at h
      simp only [Except.ok.injEq, Prod.mk.injEq] at h
      exact h.2.symm

/-- Row pointers never drop below `shape0 + 1` in a well-formed mutable
storage. -/
theorem WFm.row_ptr_lower_m (s : YaleStorageM) (h : WFm s) :
    ∀ i, i ≤ s.shape0 → s.shape0 + 1 ≤ ijaRead s i := by
  obtain ⟨-, -, -, -, h0, -, hmono, -⟩ := h
  intro i
  induction i with
  | zero =>
    intro _
    unfold ijaRead
    rw [h0]
    rfl
  | succ k ih =>
    intro hk
    have := hmono k (by omega)
    have := ih (by omega)
    omega

/-- Row pointers are monotone across any span in a well-formed mutable
storage. -/
theorem WFm.row_ptr_mono (s : YaleStorageM) (h : WFm s) :
    ∀ i j, i ≤ j → j ≤ s.shape0 → ijaRead s i ≤ ijaRead s j := by
  obtain ⟨-, -, -, -, -, -, hmono, -⟩ := h
  intro i j
  induction j with
  | zero =>
    intro hij _
    have : i = 0 := by omega
    subst this
    exact le_refl _
  | succ k ih =>
    intro hij hj
    rcases Nat.lt_or_ge i (k + 1) with hc | hc
    · have h1 := ih (by omega) (by omega)
      have h2 := hmono k (by omega)
      omega
    · have : i = k + 1 := by omega
      subst this
      exact le_refl _

/-- Reading a slot that holds `some x` yields `x`. -/
theorem ijaRead_eq_of_getD (s : YaleStorageM) (p x : Nat)
    (hx : s.ija.getD p none = some x) : ijaRead s p = x := by
  unfold ijaRead
  rw [hx]
  rfl

/-- Claim C10: whenever `set` returns the `'r'` ("replaced") tag on a
well-formed storage — the diagonal case or an off-diagonal column already
stored in the row — the structure is unchanged: the whole IJA array (row
pointers, column indices, and hence the size `IJA[rows]`), `ndnz`,
`capacity`, shape, dtype and itype are all equal to their old values, and
the value array changes at exactly one slot — the targeted cell's slot —
which receives the new value. -/
theorem claim_c10_set_replaced_is_frame (s : YaleStorageM) (h : WFm s) (r c : Nat)
    (v : Int) (hr : r < s.shape0) (_hc : c < s.shape1) (s' : YaleStorageM)
    (heq : set s r c v = .ok (s', 'r')) :
    s'.shape0 = s.shape0 ∧ s'.shape1 = s.shape1 ∧ s'.dtype = s.dtype ∧
    s'.itype = s.itype ∧ s'.ija = s.ija ∧ s'.ndnz = s.ndnz ∧
    s'.capacity = s.capacity ∧
    ∃ p, s'.a = s.a.set p (some v) ∧
      ((r = c ∧ p = r) ∨
       (r ≠ c ∧ ijaRead s r ≤ p ∧ p < ijaRead s (r + 1) ∧
        s.ija.getD p none = some c)) := by
  unfold set at heq
  by_cases hrc : r = c
  · rw [if_pos hrc] at heq
    simp only [Except.ok.injEq, Prod.mk.injEq] at heq
    obtain ⟨hs, -⟩ := heq
    subst hs
    exact ⟨rfl, rfl, rfl, rfl, rfl, rfl, rfl, r, rfl, Or.inl ⟨hrc, rfl⟩⟩
  · rw [if_neg hrc] at heq
    by_cases hemp : s.ija.getD r none = s.ija.getD (r + 1) none
    · rw [if_pos hemp] at heq
      exfalso
      rcases hvi : vector_insert s (ijaRead s r) [c] [v] 1 false with e | p1
      · rw [hvi] at heq; simp at heq
      · obtain ⟨s1, t⟩ := p1
        rw [hvi] at heq
        simp only [Except.ok.injEq, Prod.mk.injEq] at heq
        have := vector_insert_tag s (ijaRead s r) [c] [v] 1 false s1 t hvi
        rw [this] at heq
        exact absurd heq.2 (by decide)
    · rw [if_neg hemp] at heq
      by_cases hfound : (insert_search s (ijaRead s r) (ijaRead s (r + 1) - 1) c).2 = true
      · rw [if_pos hfound] at heq
        simp only [Except.ok.injEq, Prod.mk.injEq] at heq
        obtain ⟨hs, -⟩ := heq
        have hsearch : insert_search s (ijaRead s r) (ijaRead s (r + 1) - 1) c =
            ((insert_search s (ijaRead s r) (ijaRead s (r + 1) - 1) c).1, true) :=
          Prod.ext rfl hfound
        obtain ⟨g1, g2, g3⟩ := insert_search_go_found s c _ _ _ _ hsearch
        have hlow := WFm.row_ptr_lower_m s h (r + 1) (by omega)
        have hp2 : (insert_search s (ijaRead s r) (ijaRead s (r + 1) - 1) c).1 <
            ijaRead s (r + 1) := by omega
        have hsome : s.ija.getD (insert_search s (ijaRead s r) (ijaRead s (r + 1) - 1) c).1
            none = some c := by
          obtain ⟨-, -, -, -, -, -, -, -, -, hslot, -⟩ := h
          obtain ⟨hs1, -, -, -⟩ := hslot r hr _ hp2 g1
          obtain ⟨x, hx⟩ := Option.isSome_iff_exists.mp hs1
          have hxread := ijaRead_eq_of_getD s _ x hx
          rw [hx, ← g3, hxread]
        have hplen : (insert_search s (ijaRead s r) (ijaRead s (r + 1) - 1) c).1 <
            s.ija.length := by
          have hmono := WFm.row_ptr_mono s h (r + 1) s.shape0 (by omega) (le_refl _)
          obtain ⟨hlen, -, -, -, -, -, -, hsz, -⟩ := h
          have : ijaRead s s.shape0 = get_size_m s := rfl
          omega
        have hija_eq : s.ija.set (insert_search s (ijaRead s r) (ijaRead s (r + 1) - 1) c).1
            (some c) = s.ija := by
          have := list_set_getD_eq s.ija
            (insert_search s (ijaRead s r) (ijaRead s (r + 1) - 1) c).1 none hplen
          rw [hsome] at this
          exact this
        subst hs
        refine ⟨rfl, rfl, rfl, rfl, by simpa using hija_eq, rfl, rfl,
          (insert_search s (ijaRead s r) (ijaRead s (r + 1) - 1) c).1, rfl,
          Or.inr ⟨hrc, g1, hp2, hsome⟩⟩
      · rw [if_neg hfound] at heq
        exfalso
        rcases hvi : vector_insert s
            (insert_search s (ijaRead s r) (ijaRead s (r + 1) - 1) c).1 [c] [v] 1 false
          with e | p1
        · rw [hvi] at heq; simp at heq
        · obtain ⟨s1, t⟩ := p1
          rw [hvi] at heq
          simp only [Except.ok.injEq, Prod.mk.injEq] at heq
          have := vector_insert_tag s _ [c] [v] 1 false s1 t hvi
          rw [this] at heq
          exact absurd heq.2 (by decide)

/-- Witness for C10: replacing the diagonal cell `(0,0)` of the concrete
well-formed storage `yale_c10`. -/
theorem claim_c10_witness :
    WFm yale_c10 ∧ 0 < yale_c10.shape0 ∧ 0 < yale_c10.shape1 ∧
    set yale_c10 0 0 9 = .ok ({ yale_c10 with a := yale_c10.a.set 0 (some 9) }, 'r') ∧
    ({ yale_c10 with a := yale_c10.a.set 0 (some 9) }.shape0 = yale_c10.shape0 ∧
     { yale_c10 with a := yale_c10.a.set 0 (some 9) }.shape1 = yale_c10.shape1 ∧
     { yale_c10 with a := yale_c10.a.set 0 (some 9) }.dtype = yale_c10.dtype ∧
     { yale_c10 with a := yale_c10.a.set 0 (some 9) }.itype = yale_c10.itype ∧
     { yale_c10 with a := yale_c10.a.set 0 (some 9) }.ija = yale_c10.ija ∧
     { yale_c10 with a := yale_c10.a.set 0 (some 9) }.ndnz = yale_c10.ndnz ∧
     { yale_c10 with a := yale_c10.a.set 0 (some 9) }.capacity = yale_c10.capacity ∧
     ∃ p, { yale_c10 with a := yale_c10.a.set 0 (some 9) }.a = yale_c10.a.set p (some 9) ∧
       ((0 = 0 ∧ p = 0) ∨
        ((0 : Nat) ≠ 0 ∧ ijaRead yale_c10 0 ≤ p ∧ p < ijaRead yale_c10 (0 + 1) ∧
         yale_c10.ija.getD p none = some 0))) :=
  ⟨by decide, by decide, by decide, rfl,
   claim_c10_set_replaced_is_frame yale_c10 (by decide) 0 0 9 (by decide) (by decide)
     { yale_c10 with a := yale_c10.a.set 0 (some 9) } rfl⟩

/-- Claim C9: `cast_copy` returns a fresh storage (the embedding builds a
new record, never aliasing or mutating `rhs`, which a pure function
cannot change) with the same shape, itype, ndnz and size, the requested
dtype and the same capacity; its IJA entries on `[0, size)` are exactly
the source's, and its A entries on `[0, size)` are the source values
pushed through the dtype conversion (`memcpy`, i.e. the identity, when
the dtype is unchanged). -/
theorem claim_c9_cast_copy_preserves_structure (rhs : YaleStorage) (h : WF rhs)
    (new_dtype : Nat) (conv_val : Int → Int) :
    (cast_copy rhs new_dtype conv_val).shape0 = rhs.shape0 ∧
    (cast_copy rhs new_dtype conv_val).shape1 = rhs.shape1 ∧
    (cast_copy rhs new_dtype conv_val).itype = rhs.itype ∧
    (cast_copy rhs new_dtype conv_val).ndnz = rhs.ndnz ∧
    (cast_copy rhs new_dtype conv_val).dtype = new_dtype ∧
    (cast_copy rhs new_dtype conv_val).capacity = rhs.capacity ∧
    get_size_m (cast_copy rhs new_dtype conv_val) = get_size rhs ∧
    (∀ q, q < get_size rhs →
      (cast_copy rhs new_dtype conv_val).ija.getD q none = some (ijaAt rhs q) ∧
      (cast_copy rhs new_dtype conv_val).a.getD q none =
        some (if rhs.dtype = new_dtype then aAt rhs q else conv_val (aAt rhs q))) := by
  have hsz0 : rhs.shape0 < get_size rhs := by
    have := WF.row_ptr_lower rhs h rhs.shape0 (le_refl _)
    unfold get_size
    omega
  have hszcap : get_size rhs ≤ rhs.capacity := h.2.2.2.2.2.2.1
  have hija_get : ∀ q, q < get_size rhs →
      (copy_loop (fun i => some (ijaAt rhs i)) 0 (get_size rhs) 0
        (List.replicate rhs.capacity (none : Option Nat))).getD q none = some (ijaAt rhs q) := by
    intro q hq
    have := copy_loop_getD_mem (fun i => some (ijaAt rhs i)) (get_size rhs) 0 0
      (List.replicate rhs.capacity (none : Option Nat)) q none (Nat.zero_le q) (by omega)
      (by simp; omega)
    simpa using this
  have hsize : ∀ (aarr : List (Option Int)),
      get_size_m { shape0 := rhs.shape0, shape1 := rhs.shape1, dtype := new_dtype,
                   itype := rhs.itype,
                   ija := copy_loop (fun i => some (ijaAt rhs i)) 0 (get_size rhs) 0
                     (List.replicate rhs.capacity none),
                   a := aarr, ndnz := rhs.ndnz, capacity := rhs.capacity } = get_size rhs := by
    intro aarr
    unfold get_size_m ijaRead
    rw [hija_get rhs.shape0 hsz0]
    rfl
  have ha_get : ∀ (g : Nat → Int) q, q < get_size rhs →
      (copy_loop (fun i => some (g i)) 0 (get_size rhs) 0
        (List.replicate rhs.capacity (none : Option Int))).getD q none = some (g q) := by
    intro g q hq
    have := copy_loop_getD_mem (fun i => some (g i)) (get_size rhs) 0 0
      (List.replicate rhs.capacity (none : Option Int)) q none (Nat.zero_le q) (by omega)
      (by simp; omega)
    simpa using this
  unfold cast_copy copy_alloc_struct
  by_cases hd : rhs.dtype = new_dtype
  · rw [if_pos hd]
    refine ⟨rfl, rfl, rfl, rfl, rfl, rfl, hsize _, ?_⟩
    intro q hq
    rw [if_pos hd]
    exact ⟨hija_get q hq, ha_get (fun i => aAt rhs i) q hq⟩
  · rw [if_neg hd]
    refine ⟨rfl, rfl, rfl, rfl, rfl, rfl, hsize _, ?_⟩
    intro q hq
    rw [if_neg hd]
    exact ⟨hija_get q hq, ha_get (fun i => conv_val (aAt rhs i)) q hq⟩

/-- Witness for C9: cast-copying the concrete storage `yale_c1_left` to a
new dtype with conversion `x ↦ x + 1`. -/
theorem claim_c9_witness :
    WF yale_c1_left ∧
    ((cast_copy yale_c1_left 1 (fun x => x + 1)).shape0 = yale_c1_left.shape0 ∧
     (cast_copy yale_c1_left 1 (fun x => x + 1)).shape1 = yale_c1_left.shape1 ∧
     (cast_copy yale_c1_left 1 (fun x => x + 1)).itype = yale_c1_left.itype ∧
     (cast_copy yale_c1_left 1 (fun x => x + 1)).ndnz = yale_c1_left.ndnz ∧
     (cast_copy yale_c1_left 1 (fun x => x + 1)).dtype = 1 ∧
     (cast_copy yale_c1_left 1 (fun x => x + 1)).capacity = yale_c1_left.capacity ∧
     get_size_m (cast_copy yale_c1_left 1 (fun x => x + 1)) = get_size yale_c1_left ∧
     (∀ q, q < get_size yale_c1_left →
       (cast_copy yale_c1_left 1 (fun x => x + 1)).ija.getD q none =
         some (ijaAt yale_c1_left q) ∧
       (cast_copy yale_c1_left 1 (fun x => x + 1)).a.getD q none =
         some (if yale_c1_left.dtype = 1 then aAt yale_c1_left q
           else aAt yale_c1_left q + 1))) :=
  ⟨by decide,
   claim_c9_cast_copy_preserves_structure yale_c1_left (by decide) 1 (fun x => x + 1)⟩

end NmYale
